import Mathlib

/-!
# Noggenfogger: platform utilities and the UCI option registry

A shallow embedding of `src/misc.c`, `src/misc.h` and `src/ucioption.c`.
Unsigned 64-bit values are natural numbers below `2 ^ 64`; every operation
that can leave that range in C is reduced modulo `2 ^ 64` explicitly.
-/

namespace Noggenfogger

/-! ## The xorshift64star generator (`src/misc.c`, lines 63-86) -/

/-- `struct PRNG` of `misc.h`: one `uint64_t` of state. -/
structure PRNG where
  s : Nat
  deriving DecidableEq, Repr

/-- `prng_init`: `rng->s = seed`. -/
def prng_init (seed : Nat) : PRNG :=
  { s := seed }

/-- `prng_rand`: the three xor-shifts are applied to a local copy of the state,
the copy is stored back, and the product with the constant (reduced to 64 bits)
is returned.  The pair is (returned value, generator afterwards). -/
def prng_rand (rng : PRNG) : Nat × PRNG :=
  let s := rng.s
  let s := s ^^^ (s >>> 12)
  let s := s ^^^ ((s <<< 25) % 2 ^ 64)
  let s := s ^^^ (s >>> 27)
  ((s * 2685821657736338717) % 2 ^ 64, { s := s })

/-- `prng_sparse_rand`: three calls of `prng_rand` in sequence, results and-ed. -/
def prng_sparse_rand (rng : PRNG) : Nat × PRNG :=
  let (r1, rng) := prng_rand rng
  let (r2, rng) := prng_rand rng
  let (r3, rng) := prng_rand rng
  (r1 &&& r2 &&& r3, rng)

/-- A caller that draws `N` values in a row: the list of values returned by the
successive `prng_rand` calls, and the generator after the last call. -/
def prng_draws : Nat → PRNG → List Nat × PRNG
  | 0, rng => ([], rng)
  | N + 1, rng =>
    let (r, rng1) := prng_rand rng
    let (rs, rng2) := prng_draws N rng1
    (r :: rs, rng2)

/-- The generator states seen by that caller: the state after each of the `N`
successive `prng_rand` calls. -/
def prng_states : Nat → PRNG → List Nat
  | 0, _ => []
  | N + 1, rng =>
    let rng1 := (prng_rand rng).2
    rng1.s :: prng_states N rng1

/-- The reference recurrence as the specification words it: the 64-bit step
`s ^= s>>12; s ^= s<<25; s ^= s>>27`, the left shift truncated to 64 bits. -/
def xorshiftStep (s : Nat) : Nat :=
  let a := s ^^^ (s / 2 ^ 12)
  let b := a ^^^ ((a * 2 ^ 25) % 2 ^ 64)
  b ^^^ (b / 2 ^ 27)

/-! ## C library functions used by the option registry

A C string is modelled by the characters before its terminating NUL, so the
end of the list plays the part of the terminator. -/

/-- `tolower` of `<ctype.h>` in the C locale: `A`..`Z` go to `a`..`z`, every
other character is returned as it is. -/
def tolower (c : Char) : Char :=
  if 65 ≤ c.toNat ∧ c.toNat ≤ 90 then Char.ofNat (c.toNat + 32) else c

/-- `strcmp`: negative, zero or positive as the first string is less than,
equal to or greater than the second (here -1, 0, 1). -/
def strcmp : List Char → List Char → Int
  | [], [] => 0
  | [], _ :: _ => -1
  | _ :: _, [] => 1
  | c :: s, d :: t =>
    if c = d then strcmp s t else if c.toNat < d.toNat then -1 else 1

/-- `strcasecmp` of `<strings.h>`: as `strcmp` on the lower-cased characters. -/
def strcasecmp : List Char → List Char → Int
  | [], [] => 0
  | [], _ :: _ => -1
  | _ :: _, [] => 1
  | c :: s, d :: t =>
    if tolower c = tolower d then strcasecmp s t
    else if (tolower c).toNat < (tolower d).toNat then -1 else 1

/-- The test `strncmp(h, n, strlen(n)) == 0`: does `h` start with `n`. -/
def startsWith : List Char → List Char → Bool
  | _, [] => true
  | [], _ :: _ => false
  | c :: h, d :: n => c == d && startsWith h n

/-- `strstr(h, n)`: the tail of `h` that starts at the first occurrence of `n`,
or `none` for the null pointer when `n` does not occur. -/
def strstr : List Char → List Char → Option (List Char)
  | [], n => if startsWith [] n then some [] else none
  | c :: h, n => if startsWith (c :: h) n then some (c :: h) else strstr h n

/-- `isspace` of `<ctype.h>` in the C locale. -/
def isspace (c : Char) : Bool :=
  c.toNat = 32 || (9 ≤ c.toNat && c.toNat ≤ 13)

/-- `isdigit` of `<ctype.h>`. -/
def isdigit (c : Char) : Bool :=
  48 ≤ c.toNat && c.toNat ≤ 57

/-- The decimal value of a run of digits, most significant first. -/
def digitsValue (ds : List Char) : Int :=
  ds.foldl (fun acc c => acc * 10 + ((c.toNat : Int) - 48)) 0

/-- `atoi`: leading white space is skipped, an optional sign is read, then the
longest run of decimal digits; no digits gives 0.  For a value that does not
fit an `int` the C standard leaves the result open; the model follows
`(int) strtol(s, NULL, 10)` with a 64-bit `long`: the value is clamped to the
range of `long` and then truncated to 32 bits. -/
def atoi (s : List Char) : Int :=
  let s := s.dropWhile isspace
  let (neg, s) :=
    match s with
    | '-' :: t => (true, t)
    | '+' :: t => (false, t)
    | _ => (false, s)
  let n := digitsValue (s.takeWhile isdigit)
  let v := if neg then -n else n
  let l := max (-(2 ^ 63)) (min v (2 ^ 63 - 1))
  (l + 2 ^ 31) % 2 ^ 32 - 2 ^ 31

/-- Modelled from the spec: the type tags of `uci.h`, which is not among the
sources.  The spec lists boolean, integer-with-range, button, free string and
enumerated string, and a disabled mark; the constructors carry the names
`ucioption.c` uses for them. -/
inductive OptType where
  | OPT_TYPE_CHECK
  | OPT_TYPE_SPIN
  | OPT_TYPE_BUTTON
  | OPT_TYPE_STRING
  | OPT_TYPE_COMBO
  | OPT_TYPE_DISABLED
  deriving DecidableEq, Repr

open OptType

/-- The four change callbacks defined in `ucioption.c`; an option's `onChange`
function pointer is one of them or null. -/
inductive OnChange where
  | on_clear_hash
  | on_hash_size
  | on_threads
  | on_large_pages
  deriving DecidableEq, Repr

/-- Modelled from the spec: `struct Option` of `uci.h`, which is not among the
sources: a named entry with a type tag, a default, minimum and maximum, a
default string, an optional change callback, the current value and the current
string.  The fields are in the order of the table initialisers of
`ucioption.c` and carry the names used there (`def_` is the C field `def`);
a null pointer is `none`. -/
structure UciOption where
  name : String
  type : OptType
  def_ : Int
  minVal : Int
  maxVal : Int
  defString : Option String
  onChange : Option OnChange
  value : Int
  valString : Option String
  deriving DecidableEq, Repr

/-- Modelled from the spec: the settings structure of `settings.h`, which is not
among the sources, reduced to the three fields `ucioption.c` uses (table size,
thread count, large-page preference).  Each holds the `int` assigned to it; the
conversion to the field type declared in `settings.h` is not modelled. -/
structure Settings where
  ttSize : Int
  numThreads : Int
  largePages : Int
  deriving DecidableEq, Repr

/-- Everything `ucioption.c` reads or writes outside the option table: the live
and the pending settings, plus two observation fields that the C code does not
have: the number of `search_clear()` calls made so far and the log of callback
invocations, each with the option record the callback was handed. -/
structure Globals where
  settings : Settings
  delayedSettings : Settings
  searchClears : Nat
  onChangeLog : List (OnChange × UciOption)
  deriving DecidableEq, Repr

/-- The table together with the other globals. -/
structure Engine where
  optionsMap : List UciOption
  globals : Globals
  deriving DecidableEq, Repr

/-- What the preprocessor and the missing headers decide. -/
structure Build where
  /-- `IS_64BIT` is defined. -/
  IS_64BIT : Bool
  /-- `NNUE` is defined. -/
  NNUE : Bool
  /-- `NNUE_PURE` is defined. -/
  NNUE_PURE : Bool
  /-- The string `DefaultEvalFile` of `evaluate.h`. -/
  DefaultEvalFile : String
  /-- The value of `sizeof(size_t)`. -/
  sizeof_size_t : Nat
  /-- `_WIN32` is defined. -/
  WIN32 : Bool
  /-- The result of the call `large_pages_supported()` (Windows only). -/
  large_pages_supported : Bool
  /-- `defined(__linux__) && !defined(MADV_HUGEPAGE)`. -/
  LINUX_NO_MADV_HUGEPAGE : Bool
  /-- The enum constant `OPT_LARGE_PAGES` of `uci.h`. -/
  OPT_LARGE_PAGES : Nat
  /-- The enum constant `OPT_SKILL_LEVEL` of `uci.h`. -/
  OPT_SKILL_LEVEL : Nat
  /-- The enum constant `OPT_SYZ_PROBE_LIMIT` of `uci.h`. -/
  OPT_SYZ_PROBE_LIMIT : Nat
  deriving Repr

/-- `MAX_THREADS` of `thread.h`. -/
def MAX_THREADS : Int := 1

/-- `MAXHASHKB`: 33554432 with `IS_64BIT`, 2048 without. -/
def MAXHASHKB (b : Build) : Int :=
  if b.IS_64BIT then 33554432 else 2048

/-- A table initialiser `{ name, type, def, minVal, maxVal, defString, onChange, 0, NULL }`. -/
def row (name : String) (type : OptType) (d lo hi : Int) (defString : Option String)
    (onChange : Option OnChange) : UciOption :=
  { name := name, type := type, def_ := d, minVal := lo, maxVal := hi,
    defString := defString, onChange := onChange, value := 0, valString := none }

/-- The static initialiser of `optionsMap`, without the terminating `{ 0 }` row. -/
def optionsMap (b : Build) : List UciOption :=
  [ row "Contempt" OPT_TYPE_SPIN 24 (-100) 100 none none,
    row "Analysis Contempt" OPT_TYPE_COMBO 0 0 0 (some "Off var Off var White var Black") none,
    row "Threads" OPT_TYPE_SPIN 1 1 MAX_THREADS none (some OnChange.on_threads),
    row "Hash" OPT_TYPE_SPIN 1024 64 (MAXHASHKB b) none (some OnChange.on_hash_size),
    row "Clear Hash" OPT_TYPE_BUTTON 0 0 0 none (some OnChange.on_clear_hash),
    row "Ponder" OPT_TYPE_CHECK 0 0 0 none none,
    row "MultiPV" OPT_TYPE_SPIN 1 1 500 none none,
    row "Skill Level" OPT_TYPE_SPIN 20 0 20 none none,
    row "Move Overhead" OPT_TYPE_SPIN 10 0 5000 none none,
    row "Slow Mover" OPT_TYPE_SPIN 100 10 1000 none none,
    row "nodestime" OPT_TYPE_SPIN 0 0 10000 none none,
    row "UCI_AnalyseMode" OPT_TYPE_CHECK 0 0 0 none none,
    row "UCI_Chess960" OPT_TYPE_CHECK 0 0 0 none none ]
  ++ (if b.NNUE then
        [ row "EvalFile" OPT_TYPE_STRING 0 0 0 (some b.DefaultEvalFile) none ]
        ++ (if b.NNUE_PURE then []
            else [ row "Use NNUE" OPT_TYPE_COMBO 0 0 0
                    (some "Hybrid var Hybrid var Pure var Classical") none ])
      else [])
  ++ [ row "LargePages" OPT_TYPE_CHECK 1 0 0 none (some OnChange.on_large_pages) ]

/-- The assignment `optionsMap[i].field = ...` as an update `f` of row `i`.  An
index that names no row leaves the rows as they are: in C the write then lands
on the terminator row, which no loop reads past its null name, or outside the
array, where C defines no behaviour. -/
def poke : List UciOption → Nat → (UciOption → UciOption) → List UciOption
  | [], _, _ => []
  | o :: t, 0, f => f o :: t
  | o :: t, i + 1, f => o :: poke t i f

/-- The body of callback `cb` run on the option `opt`.  `search_clear` is
defined outside these sources; only the fact that it is called is recorded. -/
def runOnChange (cb : OnChange) (opt : UciOption) (g : Globals) : Globals :=
  match cb with
  | OnChange.on_clear_hash =>
    if g.settings.ttSize ≠ 0 then { g with searchClears := g.searchClears + 1 } else g
  | OnChange.on_hash_size =>
    { g with delayedSettings := { g.delayedSettings with ttSize := opt.value } }
  | OnChange.on_threads =>
    { g with delayedSettings := { g.delayedSettings with numThreads := opt.value } }
  | OnChange.on_large_pages =>
    { g with delayedSettings := { g.delayedSettings with largePages := opt.value } }

/-- The statement `if (opt->onChange) opt->onChange(opt);`, with the invocation
recorded in the log. -/
def notify (opt : UciOption) (g : Globals) : Globals :=
  match opt.onChange with
  | none => g
  | some cb => runOnChange cb opt { g with onChangeLog := g.onChangeLog ++ [(cb, opt)] }

/-- The `switch` of `options_init` on one enabled option.  `none` stands for
undefined behaviour: `strdup`, `strstr` or `strlen` applied to a null pointer. -/
def init_switch (opt : UciOption) : Option UciOption :=
  match opt.type with
  | OPT_TYPE_CHECK => some { opt with value := opt.def_ }
  | OPT_TYPE_SPIN => some { opt with value := opt.def_ }
  | OPT_TYPE_BUTTON => some opt
  | OPT_TYPE_STRING =>
    match opt.defString with
    | none => none
    | some d => some { opt with valString := some d }
  | OPT_TYPE_COMBO =>
    match opt.defString with
    | none => none
    | some d =>
      match strstr d.data " var".data with
      | none => none
      | some s =>
        let len := d.data.length - s.length
        some { opt with valString := some (String.mk ((d.data.take len).map tolower)) }
  | OPT_TYPE_DISABLED => some opt

/-- The `for` loop of `options_init` from the row at the head of the list on. -/
def options_init_loop : List UciOption → Globals → Option (List UciOption × Globals)
  | [], g => some ([], g)
  | opt :: rest, g =>
    if opt.type = OPT_TYPE_DISABLED then
      match options_init_loop rest g with
      | none => none
      | some (rest1, g1) => some (opt :: rest1, g1)
    else
      match init_switch opt with
      | none => none
      | some opt1 =>
        match options_init_loop rest (notify opt1 g) with
        | none => none
        | some (rest1, g1) => some (opt1 :: rest1, g1)

/-- The assignments of `options_init` that precede its loop. -/
def options_init_prepare (b : Build) (tbl : List UciOption) : List UciOption :=
  let tbl :=
    if b.WIN32 && !b.large_pages_supported then
      poke tbl b.OPT_LARGE_PAGES (fun o => { o with type := OPT_TYPE_DISABLED })
    else tbl
  let tbl :=
    if b.LINUX_NO_MADV_HUGEPAGE then
      poke tbl b.OPT_LARGE_PAGES (fun o => { o with type := OPT_TYPE_DISABLED })
    else tbl
  let tbl := poke tbl b.OPT_SKILL_LEVEL (fun o => { o with type := OPT_TYPE_DISABLED })
  if b.sizeof_size_t < 8 then
    poke (poke tbl b.OPT_SYZ_PROBE_LIMIT (fun o => { o with def_ := 5 }))
      b.OPT_SYZ_PROBE_LIMIT (fun o => { o with maxVal := 5 })
  else tbl

/-- `options_init`. -/
def options_init (b : Build) (e : Engine) : Option Engine :=
  match options_init_loop (options_init_prepare b e.optionsMap) e.globals with
  | none => none
  | some (tbl, g) => some { optionsMap := tbl, globals := g }

/-- The program state before `options_init`: the table as statically
initialised, the other globals as they are. -/
def boot (b : Build) (g : Globals) : Engine :=
  { optionsMap := optionsMap b, globals := g }

/-- `option_value`: `optionsMap[optIdx].value` (`none` when no row has that index). -/
def option_value (e : Engine) (optIdx : Nat) : Option Int :=
  (e.optionsMap[optIdx]?).map (fun o => o.value)

/-- `option_string_value`: `optionsMap[optIdx].valString`. -/
def option_string_value (e : Engine) (optIdx : Nat) : Option (Option String) :=
  (e.optionsMap[optIdx]?).map (fun o => o.valString)

/-- `option_default_string_value`: `optionsMap[optIdx].defString`. -/
def option_default_string_value (e : Engine) (optIdx : Nat) : Option (Option String) :=
  (e.optionsMap[optIdx]?).map (fun o => o.defString)

/-- The `switch` of `option_set_by_name` on the matching option and what follows
it.  `none` is the early `return true`; `some` is the option after the switch
and the globals after `if (opt->onChange) opt->onChange(opt);`. -/
def set_switch (opt : UciOption) (value : String) (g : Globals) :
    Option (UciOption × Globals) :=
  match opt.type with
  | OPT_TYPE_CHECK =>
    if strcmp value.data "true".data = 0 then
      let opt1 := { opt with value := 1 }
      some (opt1, notify opt1 g)
    else if strcmp value.data "false".data = 0 then
      let opt1 := { opt with value := 0 }
      some (opt1, notify opt1 g)
    else none
  | OPT_TYPE_SPIN =>
    let val := atoi value.data
    if val < opt.minVal ∨ val > opt.maxVal then none
    else
      let opt1 := { opt with value := val }
      some (opt1, notify opt1 g)
  | OPT_TYPE_BUTTON => some (opt, notify opt g)
  | OPT_TYPE_STRING =>
    let opt1 := { opt with valString := some value }
    some (opt1, notify opt1 g)
  | OPT_TYPE_COMBO =>
    let opt1 := { opt with valString := some (String.mk (value.data.map tolower)) }
    some (opt1, notify opt1 g)
  | OPT_TYPE_DISABLED => some (opt, notify opt g)

/-- The `for` loop of `option_set_by_name` from the row at the head of the list
on: the returned flag, the rows and the globals afterwards. -/
def option_set_by_name_loop (name value : String) :
    List UciOption → Globals → Bool × List UciOption × Globals
  | [], g => (false, [], g)
  | opt :: rest, g =>
    if opt.type = OPT_TYPE_DISABLED then
      let r := option_set_by_name_loop name value rest g
      (r.1, opt :: r.2.1, r.2.2)
    else if strcasecmp opt.name.data name.data = 0 then
      match set_switch opt value g with
      | none => (true, opt :: rest, g)
      | some (opt1, g1) => (true, opt1 :: rest, g1)
    else
      let r := option_set_by_name_loop name value rest g
      (r.1, opt :: r.2.1, r.2.2)

/-- `option_set_by_name`. -/
def option_set_by_name (name value : String) (e : Engine) : Bool × Engine :=
  let r := option_set_by_name_loop name value e.optionsMap e.globals
  (r.1, { optionsMap := r.2.1, globals := r.2.2 })

/-- `option_set_value`: the value is overwritten and the callback, if any, runs
(`none` when no row has that index). -/
def option_set_value (optIdx : Nat) (value : Int) (e : Engine) : Option Engine :=
  match e.optionsMap[optIdx]? with
  | none => none
  | some opt =>
    let opt1 := { opt with value := value }
    some { optionsMap := e.optionsMap.set optIdx opt1, globals := notify opt1 e.globals }

/-- A sequence of `option_set_by_name` calls, first to last. -/
def run_set_by_name : List (String × String) → Engine → Engine
  | [], e => e
  | (name, value) :: cmds, e => run_set_by_name cmds (option_set_by_name name value e).2

/-! ## Row-wise views used to state and prove the claims -/

/-- The effect of the assignments before the loop of `options_init` on the row
with index `i`. -/
def prepRow (b : Build) (i : Nat) (o : UciOption) : UciOption :=
  let o := if (b.WIN32 && !b.large_pages_supported) = true ∧ i = b.OPT_LARGE_PAGES
    then { o with type := OPT_TYPE_DISABLED } else o
  let o := if b.LINUX_NO_MADV_HUGEPAGE = true ∧ i = b.OPT_LARGE_PAGES
    then { o with type := OPT_TYPE_DISABLED } else o
  let o := if i = b.OPT_SKILL_LEVEL then { o with type := OPT_TYPE_DISABLED } else o
  if b.sizeof_size_t < 8 ∧ i = b.OPT_SYZ_PROBE_LIMIT then { o with def_ := 5, maxVal := 5 } else o

/-- One iteration of the loop of `options_init` on a row: a disabled row is
skipped, any other goes through the `switch`. -/
def initRow (o : UciOption) : Option UciOption :=
  if o.type = OPT_TYPE_DISABLED then some o else init_switch o

/-- The callback invocations of one run of the loop of `options_init`, read off
the rows it leaves behind: one entry for each enabled row with a callback. -/
def initCalls (tbl : List UciOption) : List (OnChange × UciOption) :=
  tbl.filterMap (fun o =>
    if o.type = OPT_TYPE_DISABLED then none else o.onChange.map (fun cb => (cb, o)))

/-- The lookup condition of `option_set_by_name` on a row: the row is enabled
and `strcasecmp` finds its name equal to `name`. -/
def Matches (name : String) (o : UciOption) : Prop :=
  o.type ≠ OPT_TYPE_DISABLED ∧ strcasecmp o.name.data name.data = 0

instance (name : String) (o : UciOption) : Decidable (Matches name o) := by
  unfold Matches
  exact inferInstance

/-- A sample build for the concrete instances: 64-bit Linux with `MADV_HUGEPAGE`,
no NNUE, and enum constants that name the rows `Skill Level` and `LargePages`
and no row for `OPT_SYZ_PROBE_LIMIT`. -/
def sampleBuild : Build :=
  { IS_64BIT := true, NNUE := false, NNUE_PURE := false, DefaultEvalFile := "",
    sizeof_size_t := 8, WIN32 := false, large_pages_supported := false,
    LINUX_NO_MADV_HUGEPAGE := false, OPT_LARGE_PAGES := 13, OPT_SKILL_LEVEL := 7,
    OPT_SYZ_PROBE_LIMIT := 16 }

/-- Sample globals for the concrete instances: everything zero, nothing logged. -/
def sampleGlobals : Globals :=
  { settings := { ttSize := 0, numThreads := 0, largePages := 0 },
    delayedSettings := { ttSize := 0, numThreads := 0, largePages := 0 },
    searchClears := 0, onChangeLog := [] }

/-- The engine after `options_init` on the sample build (the table as it stands
when `options_init` cannot complete). -/
def sampleEngine : Engine :=
  (options_init sampleBuild (boot sampleBuild sampleGlobals)).getD
    (boot sampleBuild sampleGlobals)

/-- The name and the type tag of every row, in table order: what the lookup of
`option_set_by_name` depends on. -/
def shape (tbl : List UciOption) : List (String × OptType) :=
  tbl.map (fun o => (o.name, o.type))

/-- None of the assignments before the loop of `options_init` lands on row `i`
in build `b`. -/
def untouched (b : Build) (i : Nat) : Prop :=
  b.OPT_SKILL_LEVEL ≠ i ∧
    ((b.WIN32 && !b.large_pages_supported) = true → b.OPT_LARGE_PAGES ≠ i) ∧
    (b.LINUX_NO_MADV_HUGEPAGE = true → b.OPT_LARGE_PAGES ≠ i) ∧
    (b.sizeof_size_t < 8 → b.OPT_SYZ_PROBE_LIMIT ≠ i)

instance (b : Build) (i : Nat) : Decidable (untouched b i) := by
  unfold untouched
  exact inferInstance

/-- The statement `if (opt->onChange) opt->onChange(opt);` run on every enabled
row of a table, first row to last. -/
def notifyAll (tbl : List UciOption) (g : Globals) : Globals :=
  tbl.foldl (fun g o => if o.type = OPT_TYPE_DISABLED then g else notify o g) g

/-! ## Memory allocation (`src/misc.c`, lines 241-293, the Unix branch)

Addresses and sizes are 64-bit unsigned values (`uintptr_t`, `size_t`). -/

/-- The allocation record `alloc_t` of the Unix branch of `misc.h`. -/
structure alloc_t where
  ptr : Nat
  size : Nat
  deriving DecidableEq, Repr

/-- `MAP_FAILED` of `<sys/mman.h>`: `(void *) -1`, the all-ones address. -/
def MAP_FAILED : Nat := 2 ^ 64 - 1

/-- `allocate_memory`, Unix branch.  `mmap` stands for the system call
`mmap(NULL, allocSize, ...)`: the address it returns for the length it is
given; the three call sites differ in flags only and `madvise` returns
nothing that is used.  The pair is (returned pointer, `*alloc` afterwards). -/
def allocate_memory (mmap : Nat → Nat) (size : Nat) (lp : Bool) : Nat × alloc_t :=
  let alignment := if lp then (1 <<< 21) % 2 ^ 64 else 1
  let allocSize := (size + alignment - 1) % 2 ^ 64
  let ptr := mmap allocSize
  (((ptr + alignment - 1) % 2 ^ 64) &&& (2 ^ 64 - 1 - (alignment - 1)),
    { ptr := ptr, size := allocSize })

/-- `free_memory`, Unix branch: the arguments of the `munmap` call it makes. -/
def free_memory (alloc : alloc_t) : Nat × Nat :=
  (alloc.ptr, alloc.size)

/-! ## Endianness helpers (`src/misc.h`, lines 137-188)

Memory is a map from addresses to bytes; the byte order of the host decides
what a multi-byte load or store does with them. -/

/-- The byte order of the machine the program runs on. -/
inductive Host where
  | little
  | big
  deriving DecidableEq, Repr

/-- The load `*(uint32_t *)p` on host `h`: the four bytes from address `p` on,
the first one least significant on a little-endian host and most significant
on a big-endian one. -/
def load_u32 (h : Host) (mem : Nat → Nat) (p : Nat) : Nat :=
  match h with
  | Host.little => mem p + 2 ^ 8 * mem (p + 1) + 2 ^ 16 * mem (p + 2) + 2 ^ 24 * mem (p + 3)
  | Host.big => mem (p + 3) + 2 ^ 8 * mem (p + 2) + 2 ^ 16 * mem (p + 1) + 2 ^ 24 * mem p

/-- The load `*(uint16_t *)p` on host `h`. -/
def load_u16 (h : Host) (mem : Nat → Nat) (p : Nat) : Nat :=
  match h with
  | Host.little => mem p + 2 ^ 8 * mem (p + 1)
  | Host.big => mem (p + 1) + 2 ^ 8 * mem p

/-- The byte at the lowest address of a 32-bit `int` holding `v` on host `h`:
what `*(uint8_t *)&num` reads. -/
def first_byte (h : Host) (v : Nat) : Nat :=
  match h with
  | Host.little => v % 2 ^ 8
  | Host.big => v / 2 ^ 24 % 2 ^ 8

/-- `is_little_endian`: `int num = 1; return *(uint8_t *)&num == 1;`. -/
def is_little_endian (h : Host) : Bool :=
  first_byte h 1 == 1

/-- The compiler builtin `__builtin_bswap32`: the four bytes of `v` in reverse
order. -/
def bswap32 (v : Nat) : Nat :=
  (v % 2 ^ 8) * 2 ^ 24 + (v / 2 ^ 8 % 2 ^ 8) * 2 ^ 16 + (v / 2 ^ 16 % 2 ^ 8) * 2 ^ 8
    + v / 2 ^ 24 % 2 ^ 8

/-- The compiler builtin `__builtin_bswap16`: the two bytes of `v` swapped. -/
def bswap16 (v : Nat) : Nat :=
  (v % 2 ^ 8) * 2 ^ 8 + v / 2 ^ 8 % 2 ^ 8

/-- `from_le_u32`. -/
def from_le_u32 (h : Host) (v : Nat) : Nat :=
  if is_little_endian h then v else bswap32 v

/-- `from_le_u16`. -/
def from_le_u16 (h : Host) (v : Nat) : Nat :=
  if is_little_endian h then v else bswap16 v

/-- `read_le_u32`: `from_le_u32(*(uint32_t *)p)`. -/
def read_le_u32 (h : Host) (mem : Nat → Nat) (p : Nat) : Nat :=
  from_le_u32 h (load_u32 h mem p)

/-- `read_le_u16`: `from_le_u16(*(uint16_t *)p)`. -/
def read_le_u16 (h : Host) (mem : Nat → Nat) (p : Nat) : Nat :=
  from_le_u16 h (load_u16 h mem p)

/-- `readu_le_u32`: `q[0] | (q[1] << 8) | (q[2] << 16) | (q[3] << 24)`.  The
bytes are promoted to 32-bit `int`; the value is given as the 32-bit pattern
of the result, which is what the conversion to the `uint32_t` return type
yields. -/
def readu_le_u32 (mem : Nat → Nat) (p : Nat) : Nat :=
  (mem p ||| (mem (p + 1) <<< 8) % 2 ^ 32 ||| (mem (p + 2) <<< 16) % 2 ^ 32
    ||| (mem (p + 3) <<< 24) % 2 ^ 32) % 2 ^ 32

/-- `readu_le_u16`: `q[0] | (q[1] << 8)`, converted to the `uint16_t` return
type. -/
def readu_le_u16 (mem : Nat → Nat) (p : Nat) : Nat :=
  (mem p ||| (mem (p + 1) <<< 8) % 2 ^ 32) % 2 ^ 16

/-! ## Linear algebra over GF(2) for the period of the generator

A 64-bit word is a vector over GF(2) with `^^^` as addition.  A linear map on
such vectors is given by its columns: entry `i` of the list is the image of
`2 ^ i`. -/

/-- A function on natural numbers that respects `^^^`. -/
def XorLinear (g : Nat → Nat) : Prop :=
  ∀ a b, g (a ^^^ b) = g a ^^^ g b

/-- The map given by the columns `A` applied to `v`: the xor of the columns
selected by the bits of `v`, lowest bit first.  (Written with the recursor so
that it evaluates quickly.) -/
def applyCols (A : List Nat) : Nat → Nat :=
  @List.rec Nat (fun _ => Nat → Nat) (fun _ => 0)
    (fun c _ ih v => Nat.xor (Nat.mul (Nat.mod v 2) c) (ih (Nat.div v 2))) A

/-- The columns of the composition: the map `A` applied to every column of `B`. -/
def mulCols (A B : List Nat) : List Nat :=
  B.map (applyCols A)

/-- The first `n` columns of a function: its values at `2 ^ 0, ..., 2 ^ (n - 1)`. -/
def colsOf (g : Nat → Nat) (n : Nat) : List Nat :=
  (List.range n).map (fun i => g (2 ^ i))

/-- The columns of the pointwise xor of two maps. -/
def xorCols (A B : List Nat) : List Nat :=
  List.zipWith (fun a b => a ^^^ b) A B

/-- The columns of the `e`-th iterate of `xorshiftStep`, by repeated squaring on
the binary digits of `e`; `k` bounds the number of digits. -/
def powCols : Nat → Nat → List Nat
  | 0, _ => colsOf id 64
  | k + 1, e =>
    let h := powCols k (e / 2)
    let s := mulCols h h
    if e % 2 = 1 then s.map xorshiftStep else s

/-- Elimination step on a pair (vector, image): when bit `k` of `r` is set, the
pivot pair `p` is added to it. -/
def elimWith (k : Nat) (p r : Nat × Nat) : Nat × Nat :=
  if r.1.testBit k then (r.1 ^^^ p.1, r.2 ^^^ p.2) else r

/-- The first pair whose vector has bit `k` set, and the other pairs. -/
def pickPivot (k : Nat) : List (Nat × Nat) → Option ((Nat × Nat) × List (Nat × Nat))
  | [] => none
  | r :: t =>
    if r.1.testBit k then some (r, t)
    else
      match pickPivot k t with
      | none => none
      | some (p, t1) => some (p, r :: t1)

/-- Gauss-Jordan elimination on pairs (vector, image), one bit position per
step, from position `k` on. -/
def gaussLoop : Nat → Nat → List (Nat × Nat) → List (Nat × Nat) → List (Nat × Nat)
  | 0, _, piv, _ => piv
  | n + 1, k, piv, rest =>
    match pickPivot k rest with
    | none => piv
    | some (p, rest1) =>
      gaussLoop n (k + 1) (piv.map (elimWith k p) ++ [p]) (rest1.map (elimWith k p))

/-- A candidate for the columns of a left inverse of the map with columns `D`,
found by elimination.  Nothing is claimed about it in general: where it is
used, the product with `D` is computed and compared with the identity. -/
def gaussInv (D : List Nat) : List Nat :=
  (gaussLoop 64 0 [] (D.zip (colsOf id 64))).map Prod.snd

/-- The columns of `s ↦ xorshiftStep^[(2^64 - 1) / q] s ^^^ s`. -/
def diffCols (q : Nat) : List Nat :=
  xorCols (powCols 64 ((2 ^ 64 - 1) / q)) (colsOf id 64)

/-! ## `mul_hi64` (`src/misc.h`, lines 122-135)

Both preprocessor branches; every `uint64_t` operation is reduced modulo
`2 ^ 64`, the cast `(uint32_t)x` is `x % 2 ^ 32`. -/

/-- `mul_hi64`, the branch for `__GNUC__` with `IS_64BIT`: the product is
formed in `unsigned __int128`, shifted right by 64 and returned as
`uint64_t`. -/
def mul_hi64_int128 (a b : Nat) : Nat :=
  (((a * b) % 2 ^ 128) >>> 64) % 2 ^ 64

/-- The local `c1` of the portable branch: `(aL * bL) >> 32`. -/
def mul_hi64_c1 (a b : Nat) : Nat :=
  let aL := a % 2 ^ 32
  let bL := b % 2 ^ 32
  ((aL * bL) % 2 ^ 64) >>> 32

/-- The local `c2` of the portable branch: `aH * bL + c1`. -/
def mul_hi64_c2 (a b : Nat) : Nat :=
  let aH := a >>> 32
  let bL := b % 2 ^ 32
  ((aH * bL) % 2 ^ 64 + mul_hi64_c1 a b) % 2 ^ 64

/-- The local `c3` of the portable branch: `aL * bH + (uint32_t)c2`. -/
def mul_hi64_c3 (a b : Nat) : Nat :=
  let aL := a % 2 ^ 32
  let bH := b >>> 32
  ((aL * bH) % 2 ^ 64 + mul_hi64_c2 a b % 2 ^ 32) % 2 ^ 64

/-- `mul_hi64`, the portable branch on 32-bit limbs:
`aH * bH + (c2 >> 32) + (c3 >> 32)`. -/
def mul_hi64 (a b : Nat) : Nat :=
  let aH := a >>> 32
  let bH := b >>> 32
  (((aH * bH) % 2 ^ 64 + mul_hi64_c2 a b >>> 32) % 2 ^ 64 + mul_hi64_c3 a b >>> 32) % 2 ^ 64

/-- The type tag and the bounds of every row, in table order. -/
def limits (tbl : List UciOption) : List (OptType × Int × Int) :=
  tbl.map (fun o => (o.type, o.minVal, o.maxVal))

/-- Every spin row of the table has its current value within its bounds. -/
def SpinInRange (tbl : List UciOption) : Prop :=
  ∀ o ∈ tbl, o.type = OPT_TYPE_SPIN → o.minVal ≤ o.value ∧ o.value ≤ o.maxVal

/-- A 32-bit variant of the sample build in which `OPT_SYZ_PROBE_LIMIT` names
the row `MultiPV`, so that `options_init` rewrites the default and the maximum
of that row to 5. -/
def sampleBuild32 : Build :=
  { IS_64BIT := false, NNUE := false, NNUE_PURE := false, DefaultEvalFile := "",
    sizeof_size_t := 4, WIN32 := false, large_pages_supported := false,
    LINUX_NO_MADV_HUGEPAGE := false, OPT_LARGE_PAGES := 13, OPT_SKILL_LEVEL := 7,
    OPT_SYZ_PROBE_LIMIT := 6 }

/-! ## Lemmas on the generator -/

theorem prng_rand_state (rng : PRNG) : (prng_rand rng).2.s = xorshiftStep rng.s := by
  simp [prng_rand, xorshiftStep, Nat.shiftRight_eq_div_pow, Nat.shiftLeft_eq]

theorem prng_rand_value (rng : PRNG) :
    (prng_rand rng).1 = (2685821657736338717 * xorshiftStep rng.s) % 2 ^ 64 := by
  simp [prng_rand, xorshiftStep, Nat.shiftRight_eq_div_pow, Nat.shiftLeft_eq, Nat.mul_comm]

theorem xorshiftStep_lt (s : Nat) (h : s < 2 ^ 64) : xorshiftStep s < 2 ^ 64 := by
  unfold xorshiftStep
  have h1 : s / 2 ^ 12 < 2 ^ 64 := lt_of_le_of_lt (Nat.div_le_self _ _) h
  have ha : s ^^^ (s / 2 ^ 12) < 2 ^ 64 := Nat.xor_lt_two_pow h h1
  have h2 : ((s ^^^ (s / 2 ^ 12)) * 2 ^ 25) % 2 ^ 64 < 2 ^ 64 := Nat.mod_lt _ (by norm_num)
  have hb := Nat.xor_lt_two_pow ha h2
  have h3 := lt_of_le_of_lt (Nat.div_le_self _ (2 ^ 27)) hb
  exact Nat.xor_lt_two_pow hb h3

theorem xor_shr_ne_zero (s k : Nat) (hk : 0 < k) (h0 : s ≠ 0) : s ^^^ (s / 2 ^ k) ≠ 0 := by
  intro e
  rw [Nat.xor_eq_zero] at e
  have hlt : s / 2 ^ k < s :=
    Nat.div_lt_self (Nat.pos_of_ne_zero h0) (Nat.one_lt_two_pow (Nat.pos_iff_ne_zero.mp hk))
  omega

theorem xor_shl25_ne_zero (a : Nat) (ha : a < 2 ^ 64) (h0 : a ≠ 0) :
    a ^^^ ((a * 2 ^ 25) % 2 ^ 64) ≠ 0 := by
  intro e
  rw [Nat.xor_eq_zero] at e
  omega

theorem xorshiftStep_ne_zero (s : Nat) (h : s < 2 ^ 64) (h0 : s ≠ 0) :
    xorshiftStep s ≠ 0 := by
  have h1 : s / 2 ^ 12 < 2 ^ 64 := lt_of_le_of_lt (Nat.div_le_self _ _) h
  have ha : s ^^^ (s / 2 ^ 12) < 2 ^ 64 := Nat.xor_lt_two_pow h h1
  have ha0 := xor_shr_ne_zero s 12 (by norm_num) h0
  have hb0 := xor_shl25_ne_zero _ ha ha0
  exact xor_shr_ne_zero _ 27 (by norm_num) hb0

theorem mul_star_ne_zero (s : Nat) (h : s < 2 ^ 64) (h0 : s ≠ 0) :
    (2685821657736338717 * s) % 2 ^ 64 ≠ 0 := by
  intro e
  have hd : 2 ^ 64 ∣ 2685821657736338717 * s := Nat.dvd_of_mod_eq_zero e
  have h2 : Nat.Coprime 2 2685821657736338717 := by
    show Nat.gcd 2 2685821657736338717 = 1
    rfl
  have hc : Nat.Coprime (2 ^ 64) 2685821657736338717 := Nat.Coprime.pow_left _ h2
  have h1 := hc.dvd_of_dvd_mul_left hd
  have h3 := Nat.le_of_dvd (Nat.pos_of_ne_zero h0) h1
  exact absurd h (not_lt.mpr h3)

theorem prng_draws_length (N : Nat) (rng : PRNG) : (prng_draws N rng).1.length = N := by
  induction N generalizing rng with
  | zero => rfl
  | succ N ih => simp [prng_draws, ih]

theorem prng_states_length (N : Nat) (rng : PRNG) : (prng_states N rng).length = N := by
  induction N generalizing rng with
  | zero => rfl
  | succ N ih => simp [prng_states, ih]

theorem prng_draws_get (N : Nat) (rng : PRNG) (n : Nat) (hn : n < N) :
    (prng_draws N rng).1[n]? =
      some ((2685821657736338717 * xorshiftStep^[n + 1] rng.s) % 2 ^ 64) := by
  induction N generalizing rng n with
  | zero => omega
  | succ N ih =>
    cases n with
    | zero => simp [prng_draws, prng_rand_value]
    | succ n =>
      have h := ih (prng_rand rng).2 n (by omega)
      rw [prng_rand_state] at h
      simpa [prng_draws, Function.iterate_succ_apply] using h

theorem prng_states_get (N : Nat) (rng : PRNG) (n : Nat) (hn : n < N) :
    (prng_states N rng)[n]? = some (xorshiftStep^[n + 1] rng.s) := by
  induction N generalizing rng n with
  | zero => omega
  | succ N ih =>
    cases n with
    | zero => simp [prng_states, prng_rand_state]
    | succ n =>
      have h := ih (prng_rand rng).2 n (by omega)
      rw [prng_rand_state] at h
      simpa [prng_states, Function.iterate_succ_apply] using h

theorem xorshiftStep_iterate (n : Nat) (s : Nat) (h : s < 2 ^ 64) (h0 : s ≠ 0) :
    xorshiftStep^[n] s < 2 ^ 64 ∧ xorshiftStep^[n] s ≠ 0 := by
  induction n with
  | zero => exact ⟨h, h0⟩
  | succ n ih =>
    rw [Function.iterate_succ_apply']
    exact ⟨xorshiftStep_lt _ ih.1, xorshiftStep_ne_zero _ ih.1 ih.2⟩

/-! ## Claims on the generator -/

/-- C1: for every 64-bit seed `S` and every `n ≥ 1`, the `n`-th value returned
by `prng_rand` after `prng_init S` (the entry `n - 1` of any run of `N ≥ n`
draws) is `(2685821657736338717 * f^n(S)) mod 2^64` with `f` the 64-bit
xorshift step; and two generators initialised with the same seed return the
same sequence of values. -/
theorem prng_nth_draw (S : Nat) (hS : S < 2 ^ 64) (n N : Nat) (h1 : 1 ≤ n) (hN : n ≤ N) :
    (prng_draws N (prng_init S)).1[n - 1]? =
        some ((2685821657736338717 * xorshiftStep^[n] S) % 2 ^ 64) ∧
      (∀ g1 g2 : PRNG, g1 = prng_init S → g2 = prng_init S →
        (prng_draws N g1).1 = (prng_draws N g2).1) := by
  have _ := hS
  refine ⟨?_, ?_⟩
  · have h := prng_draws_get N (prng_init S) (n - 1) (by omega)
    have e : n - 1 + 1 = n := by omega
    rw [e] at h
    exact h
  · intro g1 g2 e1 e2
    rw [e1, e2]

/-- Witness for C1: the first of three draws from seed 1. -/
theorem prng_nth_draw_witness :
    (prng_draws 3 (prng_init 1)).1[1 - 1]? =
        some ((2685821657736338717 * xorshiftStep^[1] 1) % 2 ^ 64) ∧
      (∀ g1 g2 : PRNG, g1 = prng_init 1 → g2 = prng_init 1 →
        (prng_draws 3 g1).1 = (prng_draws 3 g2).1) :=
  prng_nth_draw 1 (by norm_num) 1 3 (by norm_num) (by norm_num)

/-- C2: for every nonzero 64-bit seed and every number `N` of draws, the state
after each `prng_rand` call is nonzero and every value returned is nonzero. -/
theorem prng_never_zero (S : Nat) (hS : S < 2 ^ 64) (h0 : S ≠ 0) (N : Nat) :
    (∀ s ∈ prng_states N (prng_init S), s ≠ 0) ∧
      (∀ r ∈ (prng_draws N (prng_init S)).1, r ≠ 0) := by
  constructor
  · intro s hs
    obtain ⟨n, hn, rfl⟩ := List.getElem_of_mem hs
    rw [prng_states_length] at hn
    have h := prng_states_get N (prng_init S) n hn
    rw [List.getElem?_eq_getElem (by rw [prng_states_length]; exact hn)] at h
    rw [Option.some.inj h]
    exact (xorshiftStep_iterate (n + 1) S hS h0).2
  · intro r hr
    obtain ⟨n, hn, rfl⟩ := List.getElem_of_mem hr
    rw [prng_draws_length] at hn
    have h := prng_draws_get N (prng_init S) n hn
    rw [List.getElem?_eq_getElem (by rw [prng_draws_length]; exact hn)] at h
    rw [Option.some.inj h]
    have hi := xorshiftStep_iterate (n + 1) S hS h0
    exact mul_star_ne_zero _ hi.1 hi.2

/-- Witness for C2: four draws from seed 1. -/
theorem prng_never_zero_witness :
    (∀ s ∈ prng_states 4 (prng_init 1), s ≠ 0) ∧
      (∀ r ∈ (prng_draws 4 (prng_init 1)).1, r ≠ 0) :=
  prng_never_zero 1 (by norm_num) (by norm_num) 4

/-- C3: from every state, `prng_sparse_rand` returns `r1 & r2 & r3` for the
results of three successive `prng_rand` calls and leaves the generator in the
state reached after those three calls. -/
theorem prng_sparse_rand_spec (rng : PRNG) :
    prng_sparse_rand rng =
      ((prng_rand rng).1 &&& (prng_rand (prng_rand rng).2).1 &&&
          (prng_rand (prng_rand (prng_rand rng).2).2).1,
        (prng_rand (prng_rand (prng_rand rng).2).2).2) ∧
      (prng_draws 3 rng).1 =
        [(prng_rand rng).1, (prng_rand (prng_rand rng).2).1,
          (prng_rand (prng_rand (prng_rand rng).2).2).1] ∧
      (prng_sparse_rand rng).2 = (prng_draws 3 rng).2 := by
  refine ⟨rfl, rfl, rfl⟩

/-! ## Lemmas on the C library functions -/


theorem strcmp_eq_zero (a b : List Char) : strcmp a b = 0 ↔ a = b := by
  induction a generalizing b with
  | nil => cases b <;> simp [strcmp]
  | cons c s ih =>
    cases b with
    | nil => simp [strcmp]
    | cons d t =>
      by_cases h : c = d
      · simp [strcmp, h, ih]
      · by_cases h2 : c.toNat < d.toNat <;> simp [strcmp, h, h2]

theorem strcasecmp_eq_zero (a b : List Char) :
    strcasecmp a b = 0 ↔ a.map tolower = b.map tolower := by
  induction a generalizing b with
  | nil => cases b <;> simp [strcasecmp]
  | cons c s ih =>
    cases b with
    | nil => simp [strcasecmp]
    | cons d t =>
      by_cases h : tolower c = tolower d
      · simp [strcasecmp, h, ih]
      · by_cases h2 : (tolower c).toNat < (tolower d).toNat <;> simp [strcasecmp, h, h2]

theorem startsWith_iff (h n : List Char) : startsWith h n = true ↔ ∃ post, h = n ++ post := by
  induction n generalizing h with
  | nil => simp [startsWith]
  | cons d n ih =>
    cases h with
    | nil => simp [startsWith]
    | cons c h =>
      simp only [startsWith, Bool.and_eq_true, beq_iff_eq, ih, List.cons_append, List.cons.injEq]
      constructor
      · rintro ⟨rfl, post, rfl⟩
        exact ⟨post, rfl, rfl⟩
      · rintro ⟨post, rfl, rfl⟩
        exact ⟨rfl, post, rfl⟩

theorem strstr_of_startsWith (h n : List Char) (hs : startsWith h n = true) :
    strstr h n = some h := by
  cases h <;> simp [strstr, hs]

theorem strstr_first (n : List Char) (pre post : List Char)
    (hmin : ∀ pre1 post1, pre ++ n ++ post = pre1 ++ n ++ post1 → pre.length ≤ pre1.length) :
    strstr (pre ++ n ++ post) n = some (n ++ post) := by
  induction pre with
  | nil =>
    rw [List.nil_append]
    exact strstr_of_startsWith _ _ ((startsWith_iff _ _).2 ⟨post, rfl⟩)
  | cons c pre ih =>
    have hns : startsWith (c :: pre ++ n ++ post) n = false := by
      cases hsw : startsWith (c :: pre ++ n ++ post) n with
      | false => rfl
      | true =>
        obtain ⟨post1, hp⟩ := (startsWith_iff _ _).1 hsw
        have := hmin [] post1 (by simpa using hp)
        simp at this
    have hmin1 : ∀ pre1 post1, pre ++ n ++ post = pre1 ++ n ++ post1 →
        pre.length ≤ pre1.length := by
      intro pre1 post1 e
      have := hmin (c :: pre1) post1 (by simp [e])
      simpa using this
    have e : c :: pre ++ n ++ post = c :: (pre ++ n ++ post) := by simp
    rw [e] at hns ⊢
    simp only [strstr, hns]
    exact ih hmin1

/-! ## Lemmas on the option table -/


theorem poke_getElem? (tbl : List UciOption) (k : Nat) (f : UciOption → UciOption) (i : Nat) :
    (poke tbl k f)[i]? = (tbl[i]?).map (fun o => if i = k then f o else o) := by
  induction tbl generalizing k i with
  | nil => simp [poke]
  | cons o t ih =>
    cases k with
    | zero => cases i <;> simp [poke]
    | succ k =>
      cases i with
      | zero => simp [poke]
      | succ i => simp [poke, ih]

theorem prepare_getElem? (b : Build) (tbl : List UciOption) (i : Nat) :
    (options_init_prepare b tbl)[i]? = (tbl[i]?).map (prepRow b i) := by
  unfold options_init_prepare
  cases h1 : (b.WIN32 && !b.large_pages_supported) <;>
    cases h2 : b.LINUX_NO_MADV_HUGEPAGE <;>
    by_cases h3 : b.sizeof_size_t < 8 <;>
    simp only [h3, Bool.false_eq_true, if_true, if_false] <;>
    repeat rw [poke_getElem?]
  all_goals cases tbl[i]? with
    | none => rfl
    | some o =>
      simp only [Option.map_some', prepRow, h1, h2, h3, true_and, false_and, if_false,
        Bool.false_eq_true, Option.some.injEq]
      try (split_ifs <;> rfl)

theorem prepRow_fields (b : Build) (i : Nat) (o : UciOption) :
    (prepRow b i o).name = o.name ∧ (prepRow b i o).defString = o.defString ∧
      (prepRow b i o).onChange = o.onChange ∧ (prepRow b i o).value = o.value ∧
      (prepRow b i o).valString = o.valString ∧ (prepRow b i o).minVal = o.minVal ∧
      ((prepRow b i o).type = o.type ∨ (prepRow b i o).type = OPT_TYPE_DISABLED) := by
  unfold prepRow
  split_ifs <;> simp

theorem prepRow_def (b : Build) (i : Nat) (o : UciOption) :
    (prepRow b i o).def_ = if b.sizeof_size_t < 8 ∧ i = b.OPT_SYZ_PROBE_LIMIT then 5 else o.def_ := by
  unfold prepRow
  split_ifs <;> simp

theorem init_switch_fields (o o1 : UciOption) (h : init_switch o = some o1) :
    o1.name = o.name ∧ o1.type = o.type ∧ o1.def_ = o.def_ ∧ o1.minVal = o.minVal ∧
      o1.maxVal = o.maxVal ∧ o1.defString = o.defString ∧ o1.onChange = o.onChange := by
  unfold init_switch at h
  split at h
  all_goals first
    | (cases h; simp)
    | (split at h
       · cases h
       · first
         | (cases h; simp)
         | (split at h
            · cases h
            · cases h; simp))

theorem initRow_fields (o o1 : UciOption) (h : initRow o = some o1) :
    o1.name = o.name ∧ o1.type = o.type ∧ o1.def_ = o.def_ ∧ o1.minVal = o.minVal ∧
      o1.maxVal = o.maxVal ∧ o1.defString = o.defString ∧ o1.onChange = o.onChange := by
  unfold initRow at h
  split at h
  · cases h; simp
  · exact init_switch_fields o o1 h

theorem runOnChange_log (cb : OnChange) (o : UciOption) (g : Globals) :
    (runOnChange cb o g).onChangeLog = g.onChangeLog := by
  cases cb <;> simp [runOnChange]
  split <;> rfl

theorem notify_log (o : UciOption) (g : Globals) :
    (notify o g).onChangeLog =
      g.onChangeLog ++ (match o.onChange with
        | none => []
        | some cb => [(cb, o)]) := by
  unfold notify
  cases o.onChange with
  | none => simp
  | some cb => simp [runOnChange_log]

theorem options_init_loop_rows (tbl : List UciOption) (g : Globals) (tbl1 : List UciOption)
    (g1 : Globals) (h : options_init_loop tbl g = some (tbl1, g1)) (i : Nat) :
    tbl1[i]? = (tbl[i]?).bind initRow := by
  induction tbl generalizing g tbl1 g1 i with
  | nil =>
    simp [options_init_loop] at h
    simp [h.1]
  | cons o t ih =>
    unfold options_init_loop at h
    split at h
    · rename_i hd
      split at h
      · cases h
      · rename_i r1 gg hr
        cases h
        cases i with
        | zero => simp [initRow, hd]
        | succ i => simpa using ih _ _ _ hr i
    · rename_i hd
      split at h
      · cases h
      · rename_i o1 ho
        split at h
        · cases h
        · rename_i r1 gg hr
          cases h
          cases i with
          | zero => simp [initRow, hd, ho]
          | succ i => simpa using ih _ _ _ hr i

theorem options_init_loop_log (tbl : List UciOption) (g : Globals) (tbl1 : List UciOption)
    (g1 : Globals) (h : options_init_loop tbl g = some (tbl1, g1)) :
    g1.onChangeLog = g.onChangeLog ++ initCalls tbl1 := by
  induction tbl generalizing g tbl1 g1 with
  | nil =>
    simp [options_init_loop] at h
    obtain ⟨rfl, rfl⟩ := h
    simp [initCalls]
  | cons o t ih =>
    unfold options_init_loop at h
    split at h
    · rename_i hd
      split at h
      · cases h
      · rename_i r1 gg hr
        cases h
        rw [ih _ _ _ hr]
        simp [initCalls, hd]
    · rename_i hd
      split at h
      · cases h
      · rename_i o1 ho
        split at h
        · cases h
        · rename_i r1 gg hr
          cases h
          have hf := init_switch_fields o o1 ho
          rw [ih _ _ _ hr, notify_log]
          have hd1 : ¬ o1.type = OPT_TYPE_DISABLED := by rw [hf.2.1]; exact hd
          cases hc : o1.onChange <;> simp [initCalls, hd1, hc]

theorem options_init_loop_isSome (tbl : List UciOption) (g : Globals)
    (h : ∀ o ∈ tbl, (initRow o).isSome = true) : (options_init_loop tbl g).isSome = true := by
  induction tbl generalizing g with
  | nil => simp [options_init_loop]
  | cons o t ih =>
    have ho := h o (List.mem_cons_self _ _)
    have ht : ∀ o ∈ t, (initRow o).isSome = true := fun o1 h1 => h o1 (List.mem_cons_of_mem _ h1)
    unfold options_init_loop
    by_cases hd : o.type = OPT_TYPE_DISABLED
    · simp only [hd, if_true]
      have := ih g ht
      cases hr : options_init_loop t g with
      | none => simp [hr] at this
      | some r => simp
    · simp only [hd, if_false]
      simp only [initRow, hd, if_false] at ho
      cases hs : init_switch o with
      | none => simp [hs] at ho
      | some o1 =>
        have := ih (notify o1 g) ht
        cases hr : options_init_loop t (notify o1 g) with
        | none => simp [hr] at this
        | some r => simp [hs, hr]

theorem strstr_var_first : strstr "Off var Off var White var Black".data " var".data ≠ none := by
  decide

theorem strstr_var_second :
    strstr "Hybrid var Hybrid var Pure var Classical".data " var".data ≠ none := by
  decide

theorem optionsMap_switch_ok (b : Build) : ∀ o ∈ optionsMap b, (init_switch o).isSome = true := by
  have h1 := strstr_var_first
  have h2 := strstr_var_second
  cases hc1 : strstr "Off var Off var White var Black".data " var".data with
  | none => exact absurd hc1 h1
  | some s1 =>
    cases hc2 : strstr "Hybrid var Hybrid var Pure var Classical".data " var".data with
    | none => exact absurd hc2 h2
    | some s2 =>
      have hall : (optionsMap b).all (fun o => (init_switch o).isSome) = true := by
        cases hn : b.NNUE <;> cases hp : b.NNUE_PURE <;>
          simp [optionsMap, hn, hp, row, init_switch, hc1, hc2]
      intro o ho
      exact List.all_eq_true.mp hall o ho

theorem optionsMap_head (b : Build) :
    (optionsMap b)[1]? = some (row "Analysis Contempt" OPT_TYPE_COMBO 0 0 0
        (some "Off var Off var White var Black") none) ∧
      (optionsMap b)[3]? = some (row "Hash" OPT_TYPE_SPIN 1024 64 (MAXHASHKB b) none
        (some OnChange.on_hash_size)) ∧
      (optionsMap b)[7]? = some (row "Skill Level" OPT_TYPE_SPIN 20 0 20 none none) := by
  simp [optionsMap]

theorem init_switch_isSome_congr (o p : UciOption) (ht : p.type = o.type)
    (hd : p.defString = o.defString) (h : (init_switch o).isSome = true) :
    (init_switch p).isSome = true := by
  unfold init_switch at h ⊢
  rw [ht, hd]
  cases hty : o.type <;> simp only [hty] at h ⊢ <;> try rfl
  all_goals
    cases hds : o.defString with
    | none => simp [hds] at h
    | some d =>
      simp only [hds] at h ⊢
      first
        | rfl
        | (cases hst : strstr d.data " var".data with
           | none => simp [hst] at h
           | some s => rfl)

theorem initRow_prepRow_isSome (b : Build) (i : Nat) (o : UciOption)
    (h : (init_switch o).isSome = true) : (initRow (prepRow b i o)).isSome = true := by
  have hf := prepRow_fields b i o
  unfold initRow
  by_cases hd : (prepRow b i o).type = OPT_TYPE_DISABLED
  · simp [hd]
  · simp only [hd, if_false]
    rcases hf.2.2.2.2.2.2 with ht | ht
    · exact init_switch_isSome_congr o _ ht hf.2.1 h
    · exact absurd ht hd

theorem options_init_boot (b : Build) (g : Globals) :
    ∃ e, options_init b (boot b g) = some e ∧
      (∀ i, e.optionsMap[i]? = ((optionsMap b)[i]?).bind (fun o => initRow (prepRow b i o))) ∧
      e.globals.onChangeLog = g.onChangeLog ++ initCalls e.optionsMap := by
  have hs : (options_init_loop (options_init_prepare b (optionsMap b)) g).isSome = true := by
    apply options_init_loop_isSome
    intro o ho
    obtain ⟨i, hi⟩ := List.mem_iff_getElem?.1 ho
    rw [prepare_getElem?] at hi
    cases h0 : (optionsMap b)[i]? with
    | none => simp [h0] at hi
    | some o0 =>
      simp only [h0, Option.map_some', Option.some.injEq] at hi
      rw [← hi]
      exact initRow_prepRow_isSome b i o0 (optionsMap_switch_ok b o0 (List.getElem?_mem h0))
  cases hr : options_init_loop (options_init_prepare b (optionsMap b)) g with
  | none => simp [hr] at hs
  | some r =>
    obtain ⟨tbl1, g1⟩ := r
    refine ⟨{ optionsMap := tbl1, globals := g1 }, by simp [options_init, boot, hr], ?_, ?_⟩
    · intro i
      show tbl1[i]? = _
      rw [options_init_loop_rows _ _ _ _ hr i, prepare_getElem?]
      cases (optionsMap b)[i]? <;> rfl
    · exact options_init_loop_log _ _ _ _ hr

theorem init_switch_numeric (o : UciOption)
    (ht : o.type = OPT_TYPE_CHECK ∨ o.type = OPT_TYPE_SPIN) :
    initRow o = some { o with value := o.def_ } := by
  rcases ht with ht | ht <;> simp [initRow, init_switch, ht]

theorem init_switch_combo (o : UciOption) (d : String) (pre post : List Char)
    (ht : o.type = OPT_TYPE_COMBO) (hd : o.defString = some d)
    (hsplit : d.data = pre ++ " var".data ++ post)
    (hmin : ∀ pre1 post1, d.data = pre1 ++ " var".data ++ post1 → pre.length ≤ pre1.length) :
    initRow o = some { o with valString := some (String.mk (pre.map tolower)) } := by
  have hs : strstr d.data " var".data = some (" var".data ++ post) := by
    rw [hsplit]
    apply strstr_first
    intro pre1 post1 e
    exact hmin pre1 post1 (hsplit.trans e)
  have hlen : d.data.length - (" var".data ++ post).length = pre.length := by
    rw [hsplit]
    simp only [List.length_append]
    omega
  have htake : d.data.take pre.length = pre := by
    rw [hsplit, List.append_assoc, List.take_left']
    rfl
  simp only [initRow, init_switch, ht, hd, hs, hlen, htake]
  simp

theorem init_switch_combo_eval (o : UciOption) (d : String) (s : List Char)
    (ht : o.type = OPT_TYPE_COMBO) (hd : o.defString = some d)
    (hs : strstr d.data " var".data = some s) :
    initRow o = some { o with
      valString := some (String.mk ((d.data.take (d.data.length - s.length)).map tolower)) } := by
  simp only [initRow, init_switch, ht, hd, hs]
  simp

/-! ## Claims on `options_init` -/

/-- C4: `options_init` on the statically initialised table returns, and then
every enabled option of type check or spin has its current value equal to its
default, the `def` field, which is the table's initialiser unless the build
has `sizeof(size_t) < 8` and the row is the one `OPT_SYZ_PROBE_LIMIT` names
(then 5, as `options_init` hard-codes it).  In particular `option_value` of the
`Hash` row (index 3) is 1024 whenever none of the enum constants that
`options_init` writes through names that row. -/
theorem options_init_numeric_defaults (b : Build) (g : Globals) :
    ∃ e, options_init b (boot b g) = some e ∧
      (∀ i o, e.optionsMap[i]? = some o →
        (o.type = OPT_TYPE_CHECK ∨ o.type = OPT_TYPE_SPIN) →
        o.value = o.def_ ∧
          ∃ o0, (optionsMap b)[i]? = some o0 ∧
            o.def_ = if b.sizeof_size_t < 8 ∧ i = b.OPT_SYZ_PROBE_LIMIT then 5 else o0.def_) ∧
      (b.OPT_SKILL_LEVEL ≠ 3 → b.OPT_LARGE_PAGES ≠ 3 →
        (8 ≤ b.sizeof_size_t ∨ b.OPT_SYZ_PROBE_LIMIT ≠ 3) →
        (e.optionsMap[3]?).map (fun o => o.name) = some "Hash" ∧
          option_value e 3 = some 1024) := by
  obtain ⟨e, he, hrows, _⟩ := options_init_boot b g
  refine ⟨e, he, ?_, ?_⟩
  · intro i o hi ht
    rw [hrows i] at hi
    cases h0 : (optionsMap b)[i]? with
    | none => simp [h0] at hi
    | some o0 =>
      simp only [h0, Option.some_bind] at hi
      have hf := initRow_fields _ _ hi
      have ht1 : (prepRow b i o0).type = OPT_TYPE_CHECK ∨ (prepRow b i o0).type = OPT_TYPE_SPIN := by
        rw [← hf.2.1]; exact ht
      rw [init_switch_numeric _ ht1] at hi
      cases hi
      exact ⟨rfl, o0, rfl, prepRow_def b i o0⟩
  · intro h1 h2 h3
    have h0 := (optionsMap_head b).2.1
    have hp : prepRow b 3 (row "Hash" OPT_TYPE_SPIN 1024 64 (MAXHASHKB b) none
        (some OnChange.on_hash_size)) =
        row "Hash" OPT_TYPE_SPIN 1024 64 (MAXHASHKB b) none (some OnChange.on_hash_size) := by
      have h1a : ¬ 3 = b.OPT_SKILL_LEVEL := fun e => h1 e.symm
      have h2a : ¬ 3 = b.OPT_LARGE_PAGES := fun e => h2 e.symm
      have h3a : ¬ (b.sizeof_size_t < 8 ∧ 3 = b.OPT_SYZ_PROBE_LIMIT) := by
        rintro ⟨ha, hb⟩
        rcases h3 with h3 | h3
        · omega
        · exact h3 hb.symm
      simp [prepRow, h1a, h2a, h3a]
    have h3r := hrows 3
    rw [h0, Option.some_bind, hp, init_switch_numeric _ (Or.inr rfl)] at h3r
    simp [option_value, h3r, row]

/-- Instance of C4 on the sample build: `options_init` returns and `option_value`
of `Hash` is 1024. -/
theorem options_init_numeric_defaults_witness :
    ∃ e, options_init sampleBuild (boot sampleBuild sampleGlobals) = some e ∧
      option_value e 3 = some 1024 := by
  obtain ⟨e, he, _, h3⟩ := options_init_numeric_defaults sampleBuild sampleGlobals
  exact ⟨e, he, (h3 (by decide) (by decide) (Or.inl (by decide))).2⟩

/-- C5: after `options_init` on the statically initialised table, every enabled
combo option whose default specification contains `" var"` has as current
string the lower-cased part of the default specification before the first
`" var"`, and its default specification is the one of the static table; the
row `Analysis Contempt` (index 1), when no enum constant that disables a row
names it, has the current string `"off"`. -/
theorem options_init_combo_defaults (b : Build) (g : Globals) :
    ∃ e, options_init b (boot b g) = some e ∧
      (∀ i o d pre post, e.optionsMap[i]? = some o → o.type = OPT_TYPE_COMBO →
        o.defString = some d → d.data = pre ++ " var".data ++ post →
        (∀ pre1 post1, d.data = pre1 ++ " var".data ++ post1 → pre.length ≤ pre1.length) →
        o.valString = some (String.mk (pre.map tolower)) ∧
          option_default_string_value (boot b g) i = some (some d)) ∧
      (b.OPT_SKILL_LEVEL ≠ 1 → b.OPT_LARGE_PAGES ≠ 1 →
        (e.optionsMap[1]?).map (fun o => o.name) = some "Analysis Contempt" ∧
          option_string_value e 1 = some (some "off") ∧
          option_default_string_value e 1 = some (some "Off var Off var White var Black")) := by
  obtain ⟨e, he, hrows, _⟩ := options_init_boot b g
  refine ⟨e, he, ?_, ?_⟩
  · intro i o d pre post hi ht hd hsplit hmin
    rw [hrows i] at hi
    cases h0 : (optionsMap b)[i]? with
    | none => simp [h0] at hi
    | some o0 =>
      simp only [h0, Option.some_bind] at hi
      have hf := initRow_fields _ _ hi
      have hpf := prepRow_fields b i o0
      have ht1 : (prepRow b i o0).type = OPT_TYPE_COMBO := by rw [← hf.2.1]; exact ht
      have hd1 : (prepRow b i o0).defString = some d := by rw [← hf.2.2.2.2.2.1]; exact hd
      rw [init_switch_combo _ d pre post ht1 hd1 hsplit hmin] at hi
      cases hi
      refine ⟨rfl, ?_⟩
      simp only [option_default_string_value, boot, h0, Option.map_some']
      rw [← hpf.2.1, hd1]
  · intro h1 h2
    have h0 := (optionsMap_head b).1
    generalize hR : row "Analysis Contempt" OPT_TYPE_COMBO 0 0 0
      (some "Off var Off var White var Black") none = R at h0
    have hpf := prepRow_fields b 1 R
    have hp : (prepRow b 1 R).type = OPT_TYPE_COMBO := by
      have h1a : ¬ 1 = b.OPT_SKILL_LEVEL := fun e => h1 e.symm
      have h2a : ¬ 1 = b.OPT_LARGE_PAGES := fun e => h2 e.symm
      have hRt : R.type = OPT_TYPE_COMBO := by rw [← hR]; rfl
      unfold prepRow
      simp only [h1a, h2a, and_false, if_false]
      split_ifs <;> exact hRt
    have hd : (prepRow b 1 R).defString = some "Off var Off var White var Black" := by
      rw [hpf.2.1, ← hR]; rfl
    have hn : (prepRow b 1 R).name = "Analysis Contempt" := by
      rw [hpf.1, ← hR]; rfl
    have hs : strstr "Off var Off var White var Black".data " var".data =
        some " var Off var White var Black".data := by decide
    have hv : String.mk ((("Off var Off var White var Black".data).take
        ("Off var Off var White var Black".data.length -
          " var Off var White var Black".data.length)).map tolower) = "off" := by decide
    have h1r := hrows 1
    rw [h0, Option.some_bind, init_switch_combo_eval _ _ _ hp hd hs, hv] at h1r
    refine ⟨?_, ?_, ?_⟩
    · rw [h1r]; exact congrArg some hn
    · simp only [option_string_value, h1r, Option.map_some']
    · simp only [option_default_string_value, h1r, Option.map_some']
      rw [hd]

/-- Instance of C5 on the sample build: `options_init` returns and the current
string of `Analysis Contempt` is `"off"`. -/
theorem options_init_combo_defaults_witness :
    ∃ e, options_init sampleBuild (boot sampleBuild sampleGlobals) = some e ∧
      option_string_value e 1 = some (some "off") := by
  obtain ⟨e, he, _, h1⟩ := options_init_combo_defaults sampleBuild sampleGlobals
  exact ⟨e, he, (h1 (by decide) (by decide)).2.1⟩

/-! ## Lemmas on `option_set_by_name` -/

theorem set_loop_no_match (name value : String) (tbl : List UciOption) (g : Globals)
    (h : ∀ o ∈ tbl, ¬ Matches name o) :
    option_set_by_name_loop name value tbl g = (false, tbl, g) := by
  induction tbl with
  | nil => rfl
  | cons o t ih =>
    have ho := h o (List.mem_cons_self _ _)
    have iht := ih (fun o1 h1 => h o1 (List.mem_cons_of_mem _ h1))
    unfold option_set_by_name_loop
    by_cases hd : o.type = OPT_TYPE_DISABLED
    · simp [hd, iht]
    · have hn : ¬ strcasecmp o.name.data name.data = 0 := fun e => ho ⟨hd, e⟩
      simp [hd, hn, iht]

theorem set_loop_first (name value : String) (pre : List UciOption) (o : UciOption)
    (post : List UciOption) (g : Globals) (hpre : ∀ o1 ∈ pre, ¬ Matches name o1)
    (hm : Matches name o) :
    option_set_by_name_loop name value (pre ++ o :: post) g =
      match set_switch o value g with
      | none => (true, pre ++ o :: post, g)
      | some (o1, g1) => (true, pre ++ o1 :: post, g1) := by
  induction pre with
  | nil =>
    simp only [List.nil_append]
    unfold option_set_by_name_loop
    simp only [hm.1, hm.2, if_true, if_false]
  | cons p t ih =>
    have hp := hpre p (List.mem_cons_self _ _)
    have iht := ih (fun o1 h1 => hpre o1 (List.mem_cons_of_mem _ h1))
    simp only [List.cons_append]
    unfold option_set_by_name_loop
    by_cases hd : p.type = OPT_TYPE_DISABLED
    · simp only [hd, if_true, iht]
      cases set_switch o value g with
      | none => rfl
      | some r => rfl
    · have hn : ¬ strcasecmp p.name.data name.data = 0 := fun e => hp ⟨hd, e⟩
      simp only [hd, hn, if_false, iht]
      cases set_switch o value g with
      | none => rfl
      | some r => rfl

theorem first_match_split (name : String) (tbl : List UciOption)
    (h : ∃ o ∈ tbl, Matches name o) :
    ∃ pre o post, tbl = pre ++ o :: post ∧ (∀ o1 ∈ pre, ¬ Matches name o1) ∧ Matches name o := by
  induction tbl with
  | nil => simp at h
  | cons p t ih =>
    by_cases hp : Matches name p
    · exact ⟨[], p, t, rfl, by simp, hp⟩
    · obtain ⟨o, ho, hmo⟩ := h
      have hot : o ∈ t := by
        rcases List.mem_cons.1 ho with e | e
        · subst e; exact absurd hmo hp
        · exact e
      obtain ⟨pre, o1, post, e, h1, h2⟩ := ih ⟨o, hot, hmo⟩
      refine ⟨p :: pre, o1, post, by simp [e], ?_, h2⟩
      intro q hq
      rcases List.mem_cons.1 hq with e1 | e1
      · subst e1; exact hp
      · exact h1 q e1

theorem set_loop_flag (name value : String) (tbl : List UciOption) (g : Globals) :
    (option_set_by_name_loop name value tbl g).1 = true ↔ ∃ o ∈ tbl, Matches name o := by
  constructor
  · intro h
    by_contra hne
    have hno : ∀ o ∈ tbl, ¬ Matches name o := fun o ho hm => hne ⟨o, ho, hm⟩
    rw [set_loop_no_match name value tbl g hno] at h
    simp at h
  · intro h
    obtain ⟨pre, o, post, e, h1, h2⟩ := first_match_split name tbl h
    rw [e, set_loop_first name value pre o post g h1 h2]
    cases set_switch o value g with
    | none => rfl
    | some r => rfl

theorem set_switch_fields (o : UciOption) (value : String) (g : Globals) (o1 : UciOption)
    (g1 : Globals) (h : set_switch o value g = some (o1, g1)) :
    o1.name = o.name ∧ o1.type = o.type ∧ o1.def_ = o.def_ ∧ o1.minVal = o.minVal ∧
      o1.maxVal = o.maxVal ∧ o1.defString = o.defString ∧ o1.onChange = o.onChange := by
  unfold set_switch at h
  split at h
  · split_ifs at h <;> cases h <;> simp
  · simp only [] at h
    split_ifs at h
    cases h; simp
  all_goals (cases h; simp)


theorem set_by_name_first (name value : String) (e : Engine) (pre : List UciOption)
    (o : UciOption) (post : List UciOption) (htbl : e.optionsMap = pre ++ o :: post)
    (hpre : ∀ o1 ∈ pre, ¬ Matches name o1) (hm : Matches name o) :
    option_set_by_name name value e =
      match set_switch o value e.globals with
      | none => (true, e)
      | some (o1, g1) => (true, { optionsMap := pre ++ o1 :: post, globals := g1 }) := by
  unfold option_set_by_name
  simp only [htbl, set_loop_first name value pre o post e.globals hpre hm]
  cases set_switch o value e.globals with
  | none =>
    cases e
    simp only at htbl
    simp [htbl]
  | some r => rfl

theorem set_switch_spin (o : UciOption) (value : String) (g : Globals)
    (ht : o.type = OPT_TYPE_SPIN) :
    set_switch o value g =
      if atoi value.data < o.minVal ∨ atoi value.data > o.maxVal then none
      else some ({ o with value := atoi value.data },
        notify { o with value := atoi value.data } g) := by
  simp only [set_switch, ht]

theorem set_switch_check (o : UciOption) (value : String) (g : Globals)
    (ht : o.type = OPT_TYPE_CHECK) :
    set_switch o value g =
      if value = "true" then some ({ o with value := 1 }, notify { o with value := 1 } g)
      else if value = "false" then some ({ o with value := 0 }, notify { o with value := 0 } g)
      else none := by
  have e1 : strcmp value.data "true".data = 0 ↔ value = "true" := by
    rw [strcmp_eq_zero]
    exact ⟨fun h => String.ext h, fun h => by rw [h]⟩
  have e2 : strcmp value.data "false".data = 0 ↔ value = "false" := by
    rw [strcmp_eq_zero]
    exact ⟨fun h => String.ext h, fun h => by rw [h]⟩
  simp only [set_switch, ht, e1, e2]

/-! ## Claims on `option_set_by_name` -/

/-- C7: `option_set_by_name` returns true exactly when some enabled option of
the table has a name equal to the given name up to letter case, whatever the
value string is. -/
theorem option_set_by_name_found (name value : String) (e : Engine) :
    (option_set_by_name name value e).1 = true ↔
      ∃ o ∈ e.optionsMap, o.type ≠ OPT_TYPE_DISABLED ∧
        o.name.data.map tolower = name.data.map tolower := by
  unfold option_set_by_name
  simp only [set_loop_flag, Matches, strcasecmp_eq_zero]

/-- C10: when the option found by `option_set_by_name` is a check option, the
call returns true; the value string `"true"` sets the current value to 1 and
`"false"` sets it to 0, in both cases leaving every other row as it is and
invoking the callback, if there is one, once on the updated option; any other
string changes nothing and invokes no callback. -/
theorem option_set_by_name_check (e : Engine) (name value : String)
    (pre post : List UciOption) (o : UciOption)
    (htbl : e.optionsMap = pre ++ o :: post)
    (hfirst : ∀ o1 ∈ pre, ¬ Matches name o1) (hm : Matches name o)
    (hcheck : o.type = OPT_TYPE_CHECK) :
    (option_set_by_name name value e).1 = true ∧
      (value = "true" →
        (option_set_by_name name value e).2 =
            { optionsMap := pre ++ { o with value := 1 } :: post,
              globals := notify { o with value := 1 } e.globals } ∧
          (option_set_by_name name value e).2.globals.onChangeLog =
            e.globals.onChangeLog ++ (match o.onChange with
              | none => []
              | some cb => [(cb, { o with value := 1 })])) ∧
      (value = "false" →
        (option_set_by_name name value e).2 =
            { optionsMap := pre ++ { o with value := 0 } :: post,
              globals := notify { o with value := 0 } e.globals } ∧
          (option_set_by_name name value e).2.globals.onChangeLog =
            e.globals.onChangeLog ++ (match o.onChange with
              | none => []
              | some cb => [(cb, { o with value := 0 })])) ∧
      (value ≠ "true" → value ≠ "false" → (option_set_by_name name value e).2 = e) := by
  rw [set_by_name_first name value e pre o post htbl hfirst hm, set_switch_check o value _ hcheck]
  by_cases h1 : value = "true"
  · subst h1
    rw [if_pos rfl]
    exact ⟨rfl, fun _ => ⟨rfl, notify_log _ _⟩, fun h => absurd h (by decide),
      fun h => absurd rfl h⟩
  · by_cases h2 : value = "false"
    · subst h2
      rw [if_neg h1, if_pos rfl]
      exact ⟨rfl, fun h => absurd h (by decide), fun _ => ⟨rfl, notify_log _ _⟩,
        fun _ h => absurd rfl h⟩
    · rw [if_neg h1, if_neg h2]
      exact ⟨rfl, fun h => absurd h h1, fun h => absurd h h2, fun _ _ => rfl⟩

/-- Instance of C10 on the engine after `options_init` of the sample build:
`Ponder` set to `"True"` returns true and changes nothing. -/
theorem option_set_by_name_check_witness :
    (option_set_by_name "Ponder" "True" sampleEngine).1 = true ∧
      (option_set_by_name "Ponder" "True" sampleEngine).2 = sampleEngine := by
  have h := option_set_by_name_check sampleEngine "Ponder" "True"
    (sampleEngine.optionsMap.take 5) (sampleEngine.optionsMap.drop 6)
    { name := "Ponder", type := OPT_TYPE_CHECK, def_ := 0, minVal := 0, maxVal := 0,
      defString := none, onChange := none, value := 0, valString := none }
    (by decide) (by decide) (by decide) rfl
  exact ⟨h.1, h.2.2.2 (by decide) (by decide)⟩

/-! ## Lemmas on the table after `options_init` -/

theorem options_init_row (b : Build) (g : Globals) (e : Engine)
    (he : options_init b (boot b g) = some e) (i : Nat) (o : UciOption)
    (hi : e.optionsMap[i]? = some o) :
    ∃ o0, (optionsMap b)[i]? = some o0 ∧ initRow (prepRow b i o0) = some o := by
  obtain ⟨e1, he1, hrows, _⟩ := options_init_boot b g
  rw [he] at he1
  cases he1
  rw [hrows i] at hi
  cases h0 : (optionsMap b)[i]? with
  | none => simp [h0] at hi
  | some o0 =>
    simp only [h0, Option.some_bind] at hi
    exact ⟨o0, rfl, hi⟩

theorem optionsMap_not_an_option (b : Build) :
    ∀ o ∈ optionsMap b, strcasecmp o.name.data "NotAnOption".data ≠ 0 := by
  have hall : (optionsMap b).all
      (fun o => decide (strcasecmp o.name.data "NotAnOption".data ≠ 0)) = true := by
    cases hn : b.NNUE <;> cases hp : b.NNUE_PURE <;>
      simp only [optionsMap, hn, hp, row, if_true, if_false, Bool.false_eq_true,
        List.append_nil, List.cons_append, List.nil_append, List.all_cons, List.all_nil] <;>
      rfl
  intro o ho
  exact of_decide_eq_true (List.all_eq_true.mp hall o ho)

theorem optionsMap_names_nodup (b : Build) :
    ((optionsMap b).map (fun o => o.name.data.map tolower)).Nodup := by
  cases hn : b.NNUE <;> cases hp : b.NNUE_PURE <;>
    simp only [optionsMap, hn, hp, row, if_true, if_false, Bool.false_eq_true,
      List.append_nil, List.cons_append, List.nil_append, List.map_cons, List.map_nil] <;>
    decide

theorem nodup_map_index {α β : Type} (f : α → β) (l : List α) (h : (l.map f).Nodup)
    (i j : Nat) (a c : α) (hi : l[i]? = some a) (hj : l[j]? = some c) (e : f a = f c) :
    i = j := by
  induction l generalizing i j with
  | nil => simp at hi
  | cons x t ih =>
    rw [List.map_cons, List.nodup_cons] at h
    cases i with
    | zero =>
      cases j with
      | zero => rfl
      | succ j =>
        simp only [List.getElem?_cons_zero, Option.some.injEq] at hi
        simp only [List.getElem?_cons_succ] at hj
        exfalso
        apply h.1
        rw [hi, e]
        exact List.mem_map_of_mem f (List.getElem?_mem hj)
    | succ i =>
      cases j with
      | zero =>
        simp only [List.getElem?_cons_zero, Option.some.injEq] at hj
        simp only [List.getElem?_cons_succ] at hi
        exfalso
        apply h.1
        rw [hj, ← e]
        exact List.mem_map_of_mem f (List.getElem?_mem hi)
      | succ j =>
        simp only [List.getElem?_cons_succ] at hi hj
        rw [ih h.2 i j hi hj]

theorem no_match_of_shape (name : String) (t1 t2 : List UciOption) (hs : shape t1 = shape t2)
    (h : ∀ o ∈ t1, ¬ Matches name o) : ∀ o ∈ t2, ¬ Matches name o := by
  intro o ho hm
  have hmem : (o.name, o.type) ∈ shape t1 := by
    rw [hs]
    exact List.mem_map_of_mem (fun o => (o.name, o.type)) ho
  obtain ⟨o1, ho1, e1⟩ := List.mem_map.1 hmem
  simp only [Prod.mk.injEq] at e1
  apply h o1 ho1
  unfold Matches at hm ⊢
  rw [e1.1, e1.2]
  exact hm

theorem set_by_name_shape (name value : String) (e : Engine) :
    shape (option_set_by_name name value e).2.optionsMap = shape e.optionsMap := by
  by_cases h : ∃ o ∈ e.optionsMap, Matches name o
  · obtain ⟨pre, o, post, htbl, h1, h2⟩ := first_match_split name e.optionsMap h
    rw [set_by_name_first name value e pre o post htbl h1 h2]
    cases hs : set_switch o value e.globals with
    | none => rfl
    | some r =>
      obtain ⟨o1, g1⟩ := r
      have hf := set_switch_fields o value e.globals o1 g1 hs
      simp [shape, htbl, hf.1, hf.2.1]
  · have hno : ∀ o ∈ e.optionsMap, ¬ Matches name o := fun o ho hm => h ⟨o, ho, hm⟩
    unfold option_set_by_name
    rw [set_loop_no_match name value _ _ hno]

theorem run_set_by_name_shape (cmds : List (String × String)) (e : Engine) :
    shape (run_set_by_name cmds e).optionsMap = shape e.optionsMap := by
  induction cmds generalizing e with
  | nil => rfl
  | cons c cs ih =>
    obtain ⟨name, value⟩ := c
    simp only [run_set_by_name]
    rw [ih, set_by_name_shape]

theorem set_by_name_no_match (name value : String) (e : Engine)
    (h : ∀ o ∈ e.optionsMap, ¬ Matches name o) :
    option_set_by_name name value e = (false, e) := by
  unfold option_set_by_name
  rw [set_loop_no_match name value _ _ h]


theorem options_init_names (b : Build) (g : Globals) (e : Engine)
    (he : options_init b (boot b g) = some e) (j : Nat) (o1 : UciOption)
    (hj : e.optionsMap[j]? = some o1) :
    ∃ o0, (optionsMap b)[j]? = some o0 ∧ o1.name = o0.name := by
  obtain ⟨o0, h0, hr⟩ := options_init_row b g e he j o1 hj
  exact ⟨o0, h0, (initRow_fields _ _ hr).1.trans (prepRow_fields b j o0).1⟩

theorem options_init_disabled_row (b : Build) (g : Globals) (e : Engine)
    (he : options_init b (boot b g) = some e) (i : Nat) (o : UciOption)
    (hp : (options_init_prepare b (optionsMap b))[i]? = some o)
    (hd : o.type = OPT_TYPE_DISABLED) :
    e.optionsMap[i]? = some o ∧ ∃ o0, (optionsMap b)[i]? = some o0 ∧ o = prepRow b i o0 := by
  obtain ⟨e1, he1, hrows, _⟩ := options_init_boot b g
  rw [he] at he1
  cases he1
  rw [prepare_getElem?] at hp
  cases h0 : (optionsMap b)[i]? with
  | none => simp [h0] at hp
  | some o0 =>
    simp only [h0, Option.map_some', Option.some.injEq] at hp
    refine ⟨?_, o0, rfl, hp.symm⟩
    rw [hrows i, h0, Option.some_bind, hp]
    simp [initRow, hd]

theorem options_init_disabled_unique (b : Build) (g : Globals) (e : Engine)
    (he : options_init b (boot b g) = some e) (i : Nat) (o : UciOption)
    (hp : (options_init_prepare b (optionsMap b))[i]? = some o)
    (hd : o.type = OPT_TYPE_DISABLED) (o1 : UciOption) (h1 : o1 ∈ e.optionsMap)
    (hen : o1.type ≠ OPT_TYPE_DISABLED) :
    o1.name.data.map tolower ≠ o.name.data.map tolower := by
  intro heq
  obtain ⟨hi, o0, h0, ho⟩ := options_init_disabled_row b g e he i o hp hd
  obtain ⟨j, hj⟩ := List.mem_iff_getElem?.1 h1
  obtain ⟨o0j, h0j, hn⟩ := options_init_names b g e he j o1 hj
  have hname : o.name = o0.name := by rw [ho]; exact (prepRow_fields b i o0).1
  have hij : j = i := by
    apply nodup_map_index (fun o => o.name.data.map tolower) (optionsMap b)
      (optionsMap_names_nodup b) j i o0j o0 h0j h0
    show o0j.name.data.map tolower = o0.name.data.map tolower
    rw [← hn, ← hname]
    exact heq
  subst hij
  rw [hi] at hj
  cases hj
  exact hen hd

/-- C8: `option_set_by_name` changes no row other than the first enabled row
whose name matches; when no enabled row matches it returns false and leaves the
table, the settings, the pending settings and the callback log as they were.
After `options_init`, on any build, the name `NotAnOption` matches no row. -/
theorem option_set_by_name_frame (name value : String) (e : Engine) :
    (∀ pre o post, e.optionsMap = pre ++ o :: post → (∀ o1 ∈ pre, ¬ Matches name o1) →
        Matches name o →
        ∃ o1, (option_set_by_name name value e).2.optionsMap = pre ++ o1 :: post) ∧
      ((∀ o ∈ e.optionsMap, ¬ Matches name o) → option_set_by_name name value e = (false, e)) ∧
      (∀ b g e0, options_init b (boot b g) = some e0 →
        option_set_by_name "NotAnOption" value e0 = (false, e0)) := by
  refine ⟨?_, set_by_name_no_match name value e, ?_⟩
  · intro pre o post htbl h1 h2
    rw [set_by_name_first name value e pre o post htbl h1 h2]
    cases set_switch o value e.globals with
    | none => exact ⟨o, htbl⟩
    | some r => exact ⟨r.1, rfl⟩
  · intro b g e0 he
    apply set_by_name_no_match
    intro o ho hm
    obtain ⟨j, hj⟩ := List.mem_iff_getElem?.1 ho
    obtain ⟨o0, h0, hn⟩ := options_init_names b g e0 he j o hj
    apply optionsMap_not_an_option b o0 (List.getElem?_mem h0)
    rw [← hn]
    exact hm.2

/-- Instance of C8 on the engine after `options_init` of the sample build. -/
theorem option_set_by_name_frame_witness :
    option_set_by_name "NotAnOption" "1" sampleEngine = (false, sampleEngine) :=
  (option_set_by_name_frame "NotAnOption" "1" sampleEngine).2.1 (by decide)

/-- C9: for every row whose type is disabled when the loop of `options_init`
starts, `options_init` leaves the row as it is (its current value is not
assigned), no callback invocation it logs is for that row, and after any
sequence of `option_set_by_name` calls a further call with that row's name in
any letter case returns false and changes nothing.  `options_init` itself
disables the row `OPT_SKILL_LEVEL` names, which is `Skill Level` when that
constant is 7. -/
theorem options_init_disabled (b : Build) (g : Globals) :
    ∃ e, options_init b (boot b g) = some e ∧
      (∀ i o, (options_init_prepare b (optionsMap b))[i]? = some o →
        o.type = OPT_TYPE_DISABLED →
        e.optionsMap[i]? = some o ∧
          option_value e i = option_value (boot b g) i ∧
          (∃ new, e.globals.onChangeLog = g.onChangeLog ++ new ∧
            ∀ p ∈ new, p.2.name ≠ o.name) ∧
          (∀ cmds name value, strcasecmp o.name.data name.data = 0 →
            option_set_by_name name value (run_set_by_name cmds e) =
              (false, run_set_by_name cmds e))) ∧
      (b.OPT_SKILL_LEVEL = 7 →
        ∃ o, (options_init_prepare b (optionsMap b))[7]? = some o ∧
          o.name = "Skill Level" ∧ o.type = OPT_TYPE_DISABLED) := by
  obtain ⟨e, he, hrows, hlog⟩ := options_init_boot b g
  refine ⟨e, he, ?_, ?_⟩
  · intro i o hp hd
    obtain ⟨hi, o0, h0, ho⟩ := options_init_disabled_row b g e he i o hp hd
    have huniq := options_init_disabled_unique b g e he i o hp hd
    refine ⟨hi, ?_, ⟨initCalls e.optionsMap, hlog, ?_⟩, ?_⟩
    · simp only [option_value, hi, boot, h0, Option.map_some']
      rw [ho, (prepRow_fields b i o0).2.2.2.1]
    · intro p hpm hname
      unfold initCalls at hpm
      obtain ⟨o1, ho1, hf⟩ := List.mem_filterMap.1 hpm
      by_cases hd1 : o1.type = OPT_TYPE_DISABLED
      · simp [hd1] at hf
      · simp only [hd1, if_false, Option.map_eq_some'] at hf
        obtain ⟨cb, _, hpe⟩ := hf
        apply huniq o1 ho1 hd1
        rw [← hname, ← hpe]
    · intro cmds name value hname
      apply set_by_name_no_match
      apply no_match_of_shape name e.optionsMap _ (run_set_by_name_shape cmds e).symm
      intro o1 ho1 hm
      apply huniq o1 ho1 hm.1
      rw [(strcasecmp_eq_zero _ _).1 hm.2, (strcasecmp_eq_zero _ _).1 hname]
  · intro h7
    have h0 := (optionsMap_head b).2.2
    refine ⟨prepRow b 7 (row "Skill Level" OPT_TYPE_SPIN 20 0 20 none none), ?_, ?_, ?_⟩
    · rw [prepare_getElem?, h0]; rfl
    · exact (prepRow_fields b 7 _).1
    · unfold prepRow
      simp only [h7, if_true]
      split_ifs <;> rfl

/-- Instance of C9 on the sample build: after `options_init` a call of
`option_set_by_name` for `skill level` returns false and changes nothing. -/
theorem options_init_disabled_witness :
    ∃ e, options_init sampleBuild (boot sampleBuild sampleGlobals) = some e ∧
      option_value e 7 = some 0 ∧
      option_set_by_name "skill level" "10" e = (false, e) := by
  obtain ⟨e, he, h, _⟩ := options_init_disabled sampleBuild sampleGlobals
  have h7 := h 7
    { name := "Skill Level", type := OPT_TYPE_DISABLED, def_ := 20, minVal := 0, maxVal := 20,
      defString := none, onChange := none, value := 0, valString := none }
    (by decide) rfl
  exact ⟨e, he, h7.2.1.trans (by decide), h7.2.2.2 [] "skill level" "10" (by decide)⟩

/-! ## Claims on the other branches of `option_set_by_name` and on `option_set_value` -/

theorem set_switch_combo (o : UciOption) (value : String) (g : Globals)
    (ht : o.type = OPT_TYPE_COMBO) :
    set_switch o value g =
      some ({ o with valString := some (String.mk (value.data.map tolower)) },
        notify { o with valString := some (String.mk (value.data.map tolower)) } g) := by
  simp only [set_switch, ht]

theorem set_switch_button (o : UciOption) (value : String) (g : Globals)
    (ht : o.type = OPT_TYPE_BUTTON) : set_switch o value g = some (o, notify o g) := by
  simp only [set_switch, ht]

/-- C11: when the option found by `option_set_by_name` is a combo option, then
for every value string, legal choice or not, the call returns true, the current
string becomes the lower-cased value string (the old string is dropped, nothing
is appended), no other field and no other row changes, and the callback, if
there is one, is invoked once on the updated option. -/
theorem option_set_by_name_combo (e : Engine) (name value : String)
    (pre post : List UciOption) (o : UciOption)
    (htbl : e.optionsMap = pre ++ o :: post)
    (hfirst : ∀ o1 ∈ pre, ¬ Matches name o1) (hm : Matches name o)
    (hcombo : o.type = OPT_TYPE_COMBO) :
    (option_set_by_name name value e).1 = true ∧
      (option_set_by_name name value e).2.optionsMap =
        pre ++ { o with valString := some (String.mk (value.data.map tolower)) } :: post ∧
      (option_set_by_name name value e).2.globals =
        notify { o with valString := some (String.mk (value.data.map tolower)) } e.globals ∧
      (option_set_by_name name value e).2.globals.onChangeLog =
        e.globals.onChangeLog ++ (match o.onChange with
          | none => []
          | some cb => [(cb, { o with valString := some (String.mk (value.data.map tolower)) })]) := by
  rw [set_by_name_first name value e pre o post htbl hfirst hm, set_switch_combo o value _ hcombo]
  exact ⟨rfl, rfl, rfl, notify_log _ _⟩

/-- Instance of C11 on the engine after `options_init` of the sample build:
`Analysis Contempt` set to `Both`, which is not among its choices, is stored
as `both`. -/
theorem option_set_by_name_combo_witness :
    (option_set_by_name "analysis contempt" "Both" sampleEngine).1 = true ∧
      option_string_value (option_set_by_name "analysis contempt" "Both" sampleEngine).2 1 =
        some (some "both") := by
  have h := option_set_by_name_combo sampleEngine "analysis contempt" "Both"
    (sampleEngine.optionsMap.take 1) (sampleEngine.optionsMap.drop 2)
    { name := "Analysis Contempt", type := OPT_TYPE_COMBO, def_ := 0, minVal := 0, maxVal := 0,
      defString := some "Off var Off var White var Black", onChange := none, value := 0,
      valString := some "off" }
    (by decide) (by decide) (by decide) rfl
  refine ⟨h.1, ?_⟩
  rw [option_string_value, h.2.1]
  decide

/-- C12: when the option found by `option_set_by_name` is a button, then for
every value string the call returns true, the table is left exactly as it was,
and the callback, if there is one, is invoked exactly once; when that callback
is `on_clear_hash` (as for `Clear Hash`), `search_clear` is called once if
`settings.ttSize` is nonzero and not at all if it is zero, and the settings and
pending settings are left as they were. -/
theorem option_set_by_name_button (e : Engine) (name value : String)
    (pre post : List UciOption) (o : UciOption)
    (htbl : e.optionsMap = pre ++ o :: post)
    (hfirst : ∀ o1 ∈ pre, ¬ Matches name o1) (hm : Matches name o)
    (hbutton : o.type = OPT_TYPE_BUTTON) :
    (option_set_by_name name value e).1 = true ∧
      (option_set_by_name name value e).2.optionsMap = e.optionsMap ∧
      (option_set_by_name name value e).2.globals = notify o e.globals ∧
      (option_set_by_name name value e).2.globals.onChangeLog =
        e.globals.onChangeLog ++ (match o.onChange with
          | none => []
          | some cb => [(cb, o)]) ∧
      (o.onChange = some OnChange.on_clear_hash →
        (option_set_by_name name value e).2.globals.searchClears =
            (if e.globals.settings.ttSize ≠ 0 then e.globals.searchClears + 1
              else e.globals.searchClears) ∧
          (option_set_by_name name value e).2.globals.settings = e.globals.settings ∧
          (option_set_by_name name value e).2.globals.delayedSettings =
            e.globals.delayedSettings) := by
  rw [set_by_name_first name value e pre o post htbl hfirst hm, set_switch_button o value _ hbutton]
  refine ⟨rfl, htbl.symm, rfl, notify_log _ _, ?_⟩
  intro hcb
  simp only [notify, hcb, runOnChange]
  split_ifs <;> exact ⟨rfl, rfl, rfl⟩

/-- Instance of C12 on the engine after `options_init` of the sample build:
`Clear Hash` returns true and changes no row; `search_clear` is not called
while `settings.ttSize` is zero and is called once when it is 16. -/
theorem option_set_by_name_button_witness :
    ((option_set_by_name "Clear Hash" "" sampleEngine).1 = true ∧
        (option_set_by_name "Clear Hash" "" sampleEngine).2.optionsMap =
          sampleEngine.optionsMap ∧
        (option_set_by_name "Clear Hash" "" sampleEngine).2.globals.searchClears = 0) ∧
      (option_set_by_name "Clear Hash" ""
          { optionsMap := sampleEngine.optionsMap,
            globals := { sampleEngine.globals with
              settings := { ttSize := 16, numThreads := 1, largePages := 1 } } }).2.globals.searchClears
        = 1 := by
  have h := option_set_by_name_button sampleEngine "Clear Hash" ""
    (sampleEngine.optionsMap.take 4) (sampleEngine.optionsMap.drop 5)
    { name := "Clear Hash", type := OPT_TYPE_BUTTON, def_ := 0, minVal := 0, maxVal := 0,
      defString := none, onChange := some OnChange.on_clear_hash, value := 0,
      valString := none }
    (by decide) (by decide) (by decide) rfl
  have k := option_set_by_name_button
    { optionsMap := sampleEngine.optionsMap,
      globals := { sampleEngine.globals with
        settings := { ttSize := 16, numThreads := 1, largePages := 1 } } }
    "Clear Hash" ""
    (sampleEngine.optionsMap.take 4) (sampleEngine.optionsMap.drop 5)
    { name := "Clear Hash", type := OPT_TYPE_BUTTON, def_ := 0, minVal := 0, maxVal := 0,
      defString := none, onChange := some OnChange.on_clear_hash, value := 0,
      valString := none }
    (by decide) (by decide) (by decide) rfl
  exact ⟨⟨h.1, h.2.1, (h.2.2.2.2 rfl).1.trans (by decide)⟩, (k.2.2.2.2 rfl).1.trans (by decide)⟩

/-- C13: for every index of a row of the table and every integer `v`, whatever
the row's bounds and type (disabled included), `option_set_value` returns, the
row's current value is `v` afterwards and `option_value` on that index returns
`v`, no other field of the row and no other row changes, and the callback, if
there is one, is invoked once on the updated row; with `on_hash_size` (as for
`Hash`) the pending table size becomes `v`. -/
theorem option_set_value_spec (e : Engine) (optIdx : Nat) (v : Int) (o : UciOption)
    (hrow : e.optionsMap[optIdx]? = some o) :
    ∃ e1, option_set_value optIdx v e = some e1 ∧
      e1.optionsMap[optIdx]? = some { o with value := v } ∧
      option_value e1 optIdx = some v ∧
      (∀ j, j ≠ optIdx → e1.optionsMap[j]? = e.optionsMap[j]?) ∧
      e1.optionsMap.length = e.optionsMap.length ∧
      e1.globals = notify { o with value := v } e.globals ∧
      e1.globals.onChangeLog =
        e.globals.onChangeLog ++ (match o.onChange with
          | none => []
          | some cb => [(cb, { o with value := v })]) ∧
      (o.onChange = some OnChange.on_hash_size → e1.globals.delayedSettings.ttSize = v) := by
  have hlt : optIdx < e.optionsMap.length := by
    rcases Nat.lt_or_ge optIdx e.optionsMap.length with h | h
    · exact h
    · rw [List.getElem?_eq_none h] at hrow
      cases hrow
  have hset : option_set_value optIdx v e =
      some { optionsMap := e.optionsMap.set optIdx { o with value := v },
             globals := notify { o with value := v } e.globals } := by
    simp only [option_set_value, hrow]
  refine ⟨_, hset, ?_, ?_, ?_, ?_, rfl, notify_log _ _, ?_⟩
  · simp [List.getElem?_set, hlt]
  · simp [option_value, List.getElem?_set, hlt]
  · intro j hj
    simp [List.getElem?_set, Ne.symm hj]
  · simp
  · intro hcb
    simp [notify, hcb, runOnChange]

/-- Instance of C13 on the engine after `options_init` of the sample build:
`Hash` (bounds 64 and 33554432) set to -5 and the disabled `Skill Level` set
to 99. -/
theorem option_set_value_spec_witness :
    (∃ e1, option_set_value 3 (-5) sampleEngine = some e1 ∧ option_value e1 3 = some (-5) ∧
        e1.globals.delayedSettings.ttSize = -5) ∧
      (∃ e1, option_set_value 7 99 sampleEngine = some e1 ∧ option_value e1 7 = some 99) := by
  obtain ⟨e1, h1, _, h2, _, _, _, _, h3⟩ := option_set_value_spec sampleEngine 3 (-5)
    { name := "Hash", type := OPT_TYPE_SPIN, def_ := 1024, minVal := 64, maxVal := 33554432,
      defString := none, onChange := some OnChange.on_hash_size, value := 1024,
      valString := none }
    (by decide)
  obtain ⟨e2, k1, _, k2, _⟩ := option_set_value_spec sampleEngine 7 99
    { name := "Skill Level", type := OPT_TYPE_DISABLED, def_ := 20, minVal := 0, maxVal := 20,
      defString := none, onChange := none, value := 0, valString := none }
    (by decide)
  exact ⟨⟨e1, h1, h2, h3 rfl⟩, ⟨e2, k1, k2⟩⟩

/-! ## Lemmas on the callbacks of `options_init` -/

theorem prepRow_untouched (b : Build) (i : Nat) (o : UciOption) (h : untouched b i) :
    prepRow b i o = o := by
  obtain ⟨h1, h2, h3, h4⟩ := h
  have e1 : ¬ ((b.WIN32 && !b.large_pages_supported) = true ∧ i = b.OPT_LARGE_PAGES) :=
    fun c => h2 c.1 c.2.symm
  have e2 : ¬ (b.LINUX_NO_MADV_HUGEPAGE = true ∧ i = b.OPT_LARGE_PAGES) :=
    fun c => h3 c.1 c.2.symm
  have e3 : ¬ i = b.OPT_SKILL_LEVEL := fun c => h1 c.symm
  have e4 : ¬ (b.sizeof_size_t < 8 ∧ i = b.OPT_SYZ_PROBE_LIMIT) := fun c => h4 c.1 c.2.symm
  unfold prepRow
  simp only [e1, e2, e3, e4, if_false]

theorem options_init_loop_globals (tbl : List UciOption) (g : Globals) (tbl1 : List UciOption)
    (g1 : Globals) (h : options_init_loop tbl g = some (tbl1, g1)) :
    g1 = notifyAll tbl1 g := by
  induction tbl generalizing g tbl1 g1 with
  | nil =>
    simp [options_init_loop] at h
    obtain ⟨rfl, rfl⟩ := h
    rfl
  | cons o t ih =>
    unfold options_init_loop at h
    split at h
    · rename_i hd
      split at h
      · cases h
      · rename_i r1 gg hr
        cases h
        rw [ih _ _ _ hr]
        simp [notifyAll, hd]
    · rename_i hd
      split at h
      · cases h
      · rename_i o1 ho
        split at h
        · cases h
        · rename_i r1 gg hr
          cases h
          have hf := init_switch_fields o o1 ho
          have hd1 : ¬ o1.type = OPT_TYPE_DISABLED := by rw [hf.2.1]; exact hd
          rw [ih _ _ _ hr]
          simp [notifyAll, hd1]

theorem initCalls_rows (tbl : List UciOption) :
    (initCalls tbl).map Prod.snd =
        tbl.filter (fun o => decide (o.type ≠ OPT_TYPE_DISABLED) && o.onChange.isSome) ∧
      ∀ p ∈ initCalls tbl, p.2.onChange = some p.1 := by
  induction tbl with
  | nil => simp [initCalls]
  | cons o t ih =>
    have e : initCalls (o :: t) =
        (if o.type = OPT_TYPE_DISABLED then [] else
          match o.onChange with
          | none => []
          | some cb => [(cb, o)]) ++ initCalls t := by
      unfold initCalls
      by_cases hd : o.type = OPT_TYPE_DISABLED
      · simp [List.filterMap_cons, hd]
      · cases hc : o.onChange <;> simp [List.filterMap_cons, hd, hc]
    rw [e]
    by_cases hd : o.type = OPT_TYPE_DISABLED
    · simp only [hd, if_true, List.nil_append]
      refine ⟨?_, ih.2⟩
      rw [ih.1]
      simp [List.filter_cons, hd]
    · cases hc : o.onChange with
      | none =>
        simp only [hd, if_false, List.nil_append]
        refine ⟨?_, ih.2⟩
        rw [ih.1]
        simp [List.filter_cons, hc]
      | some cb =>
        simp only [hd, if_false]
        refine ⟨?_, ?_⟩
        · simp only [List.singleton_append, List.map_cons]
          rw [ih.1]
          simp [List.filter_cons, hd, hc]
        · intro p hp
          rcases List.mem_append.1 hp with h1 | h1
          · simp only [List.mem_singleton] at h1
            rw [h1]
            exact hc
          · exact ih.2 p h1

theorem notifyAll_cons (o : UciOption) (t : List UciOption) (g : Globals) :
    notifyAll (o :: t) g =
      notifyAll t (if o.type = OPT_TYPE_DISABLED then g else notify o g) := rfl

theorem notifyAll_keeps (π : Settings → Int) (cb : OnChange)
    (hπ : ∀ o g, π (notify o g).delayedSettings =
      if o.onChange = some cb then o.value else π g.delayedSettings)
    (tbl : List UciOption) (g : Globals)
    (hno : ∀ o ∈ tbl, o.onChange ≠ some cb) :
    π (notifyAll tbl g).delayedSettings = π g.delayedSettings := by
  induction tbl generalizing g with
  | nil => rfl
  | cons o t ih =>
    rw [notifyAll_cons, ih _ (fun o1 h1 => hno o1 (List.mem_cons_of_mem _ h1))]
    by_cases hd : o.type = OPT_TYPE_DISABLED
    · simp [hd]
    · simp only [hd, if_false]
      rw [hπ, if_neg (hno o (List.mem_cons_self _ _))]

theorem notifyAll_last (π : Settings → Int) (cb : OnChange)
    (hπ : ∀ o g, π (notify o g).delayedSettings =
      if o.onChange = some cb then o.value else π g.delayedSettings)
    (tbl : List UciOption) (g : Globals) (i : Nat) (o : UciOption)
    (hi : tbl[i]? = some o) (hen : o.type ≠ OPT_TYPE_DISABLED) (hcb : o.onChange = some cb)
    (hlast : ∀ j o1, i < j → tbl[j]? = some o1 → o1.onChange ≠ some cb) :
    π (notifyAll tbl g).delayedSettings = o.value := by
  induction tbl generalizing g i with
  | nil => simp at hi
  | cons p t ih =>
    rw [notifyAll_cons]
    cases i with
    | zero =>
      simp only [List.getElem?_cons_zero, Option.some.injEq] at hi
      subst hi
      rw [notifyAll_keeps π cb hπ, if_neg hen, hπ, if_pos hcb]
      intro o1 ho1
      obtain ⟨j, hj⟩ := List.mem_iff_getElem?.1 ho1
      exact hlast (j + 1) o1 (Nat.succ_pos j) (by simpa using hj)
    | succ i =>
      simp only [List.getElem?_cons_succ] at hi
      apply ih _ i hi
      intro j o1 hij hj
      exact hlast (j + 1) o1 (Nat.succ_lt_succ hij) (by simpa using hj)

theorem notify_ttSize (o : UciOption) (g : Globals) :
    (notify o g).delayedSettings.ttSize =
      if o.onChange = some OnChange.on_hash_size then o.value else g.delayedSettings.ttSize := by
  unfold notify
  cases hc : o.onChange with
  | none => simp
  | some cb =>
    cases cb <;> simp [runOnChange]
    split <;> rfl

theorem notify_numThreads (o : UciOption) (g : Globals) :
    (notify o g).delayedSettings.numThreads =
      if o.onChange = some OnChange.on_threads then o.value
      else g.delayedSettings.numThreads := by
  unfold notify
  cases hc : o.onChange with
  | none => simp
  | some cb =>
    cases cb <;> simp [runOnChange]
    split <;> rfl

theorem notify_largePages (o : UciOption) (g : Globals) :
    (notify o g).delayedSettings.largePages =
      if o.onChange = some OnChange.on_large_pages then o.value
      else g.delayedSettings.largePages := by
  unfold notify
  cases hc : o.onChange with
  | none => simp
  | some cb =>
    cases cb <;> simp [runOnChange]
    split <;> rfl

theorem optionsMap_callback_rows (b : Build) :
    (optionsMap b)[2]? = some (row "Threads" OPT_TYPE_SPIN 1 1 MAX_THREADS none
        (some OnChange.on_threads)) ∧
      (optionsMap b)[(optionsMap b).length - 1]? = some (row "LargePages" OPT_TYPE_CHECK 1 0 0 none
        (some OnChange.on_large_pages)) ∧
      (∀ o ∈ (optionsMap b).drop 3, o.onChange ≠ some OnChange.on_threads) ∧
      (∀ o ∈ (optionsMap b).drop 4, o.onChange ≠ some OnChange.on_hash_size) := by
  have h3 : ((optionsMap b).drop 3).all
      (fun o => decide (o.onChange ≠ some OnChange.on_threads)) = true := by
    cases hn : b.NNUE <;> cases hp : b.NNUE_PURE <;>
      simp [optionsMap, hn, hp, row]
  have h4 : ((optionsMap b).drop 4).all
      (fun o => decide (o.onChange ≠ some OnChange.on_hash_size)) = true := by
    cases hn : b.NNUE <;> cases hp : b.NNUE_PURE <;>
      simp [optionsMap, hn, hp, row]
  refine ⟨by simp [optionsMap], ?_, fun o ho => of_decide_eq_true (List.all_eq_true.mp h3 o ho),
    fun o ho => of_decide_eq_true (List.all_eq_true.mp h4 o ho)⟩
  cases hn : b.NNUE <;> cases hp : b.NNUE_PURE <;> simp [optionsMap, hn, hp]

theorem options_init_untouched_row (b : Build) (g : Globals) (e : Engine)
    (he : options_init b (boot b g) = some e) (i : Nat) (o0 : UciOption)
    (h0 : (optionsMap b)[i]? = some o0) (hu : untouched b i)
    (ht : o0.type = OPT_TYPE_CHECK ∨ o0.type = OPT_TYPE_SPIN) :
    e.optionsMap[i]? = some { o0 with value := o0.def_ } := by
  obtain ⟨e1, he1, hrows, _⟩ := options_init_boot b g
  rw [he] at he1
  cases he1
  rw [hrows i, h0, Option.some_bind, prepRow_untouched b i o0 hu, init_switch_numeric o0 ht]

theorem options_init_later_rows (b : Build) (g : Globals) (e : Engine)
    (he : options_init b (boot b g) = some e) (cb : OnChange) (i : Nat)
    (hno : ∀ o ∈ (optionsMap b).drop (i + 1), o.onChange ≠ some cb) :
    ∀ j o1, i < j → e.optionsMap[j]? = some o1 → o1.onChange ≠ some cb := by
  intro j o1 hij hj
  obtain ⟨o0, h0, hr⟩ := options_init_row b g e he j o1 hj
  have hc : o1.onChange = o0.onChange :=
    (initRow_fields _ _ hr).2.2.2.2.2.2.trans (prepRow_fields b j o0).2.2.1
  rw [hc]
  apply hno
  have hd : ((optionsMap b).drop (i + 1))[j - (i + 1)]? = some o0 := by
    rw [List.getElem?_drop]
    have ej : i + 1 + (j - (i + 1)) = j := by omega
    rw [ej]
    exact h0
  exact List.getElem?_mem hd

/-! ## Claim on the callbacks of `options_init` -/

/-- C14: `options_init` on the statically initialised table returns; the
callback invocations it adds to the log are, in table order, exactly one for
each enabled row that carries a callback, each handed the row as the table
holds it afterwards (for a check or spin row the value already equal to the
default); the other globals are what running the callback statement on every
enabled row of the final table, first to last, makes of them.  Hence the
pending settings hold `numThreads = 1`, `ttSize = 1024` and `largePages = 1`,
each whenever none of the assignments before the loop lands on the row
`Threads`, `Hash`, `LargePages` respectively (so that the row is enabled with
its table default). -/
theorem options_init_callbacks (b : Build) (g : Globals) :
    ∃ e, options_init b (boot b g) = some e ∧
      (∃ new, e.globals.onChangeLog = g.onChangeLog ++ new ∧
        new.map Prod.snd = e.optionsMap.filter
          (fun o => decide (o.type ≠ OPT_TYPE_DISABLED) && o.onChange.isSome) ∧
        (∀ p ∈ new, p.2.onChange = some p.1) ∧
        (∀ p ∈ new, p.2.type = OPT_TYPE_CHECK ∨ p.2.type = OPT_TYPE_SPIN →
          p.2.value = p.2.def_)) ∧
      e.globals = notifyAll e.optionsMap g ∧
      (untouched b 2 → e.globals.delayedSettings.numThreads = 1) ∧
      (untouched b 3 → e.globals.delayedSettings.ttSize = 1024) ∧
      (untouched b ((optionsMap b).length - 1) → e.globals.delayedSettings.largePages = 1) := by
  obtain ⟨e, he, hrows, hlog⟩ := options_init_boot b g
  have hg : e.globals = notifyAll e.optionsMap g := by
    unfold options_init at he
    cases hr : options_init_loop (options_init_prepare b (boot b g).optionsMap) (boot b g).globals with
    | none => simp [hr] at he
    | some r =>
      obtain ⟨tbl1, g1⟩ := r
      simp only [hr, Option.some.injEq] at he
      rw [← he]
      exact options_init_loop_globals _ _ _ _ hr
  have hcr := optionsMap_callback_rows b
  have hic := initCalls_rows e.optionsMap
  refine ⟨e, he, ⟨initCalls e.optionsMap, hlog, hic.1, hic.2, ?_⟩, hg, ?_, ?_, ?_⟩
  · intro p hp ht
    have hmem : p.2 ∈ e.optionsMap := by
      have : p.2 ∈ (initCalls e.optionsMap).map Prod.snd := List.mem_map_of_mem Prod.snd hp
      rw [hic.1] at this
      exact (List.mem_filter.1 this).1
    obtain ⟨i, hi⟩ := List.mem_iff_getElem?.1 hmem
    obtain ⟨o0, _, hr⟩ := options_init_row b g e he i p.2 hi
    have hf := initRow_fields _ _ hr
    have ht1 : (prepRow b i o0).type = OPT_TYPE_CHECK ∨ (prepRow b i o0).type = OPT_TYPE_SPIN := by
      rw [← hf.2.1]; exact ht
    rw [init_switch_numeric _ ht1] at hr
    rw [← Option.some.inj hr]
  · intro hu
    have hrow := options_init_untouched_row b g e he 2 _ hcr.1 hu (Or.inr rfl)
    rw [hg]
    rw [notifyAll_last (fun d => d.numThreads) OnChange.on_threads notify_numThreads
      e.optionsMap g 2 _ hrow (by simp [row]) rfl
      (options_init_later_rows b g e he OnChange.on_threads 2 hcr.2.2.1)]
    rfl
  · intro hu
    have hrow := options_init_untouched_row b g e he 3 _ (optionsMap_head b).2.1 hu (Or.inr rfl)
    rw [hg]
    rw [notifyAll_last (fun d => d.ttSize) OnChange.on_hash_size notify_ttSize
      e.optionsMap g 3 _ hrow (by simp [row]) rfl
      (options_init_later_rows b g e he OnChange.on_hash_size 3 hcr.2.2.2)]
    rfl
  · intro hu
    have hrow := options_init_untouched_row b g e he _ _ hcr.2.1 hu (Or.inl rfl)
    rw [hg]
    rw [notifyAll_last (fun d => d.largePages) OnChange.on_large_pages notify_largePages
      e.optionsMap g _ _ hrow (by simp [row]) rfl ?_]
    · rfl
    · intro j o1 hij hj
      obtain ⟨o0, h0, _⟩ := options_init_row b g e he j o1 hj
      have hlt : j < (optionsMap b).length := by
        rcases Nat.lt_or_ge j (optionsMap b).length with h | h
        · exact h
        · rw [List.getElem?_eq_none h] at h0
          cases h0
      omega

/-- Instance of C14 on the sample build, whose enum constants leave the three
rows alone: after `options_init` the pending settings hold the defaults. -/
theorem options_init_callbacks_witness :
    ∃ e, options_init sampleBuild (boot sampleBuild sampleGlobals) = some e ∧
      e.globals.delayedSettings.numThreads = 1 ∧ e.globals.delayedSettings.ttSize = 1024 ∧
      e.globals.delayedSettings.largePages = 1 := by
  obtain ⟨e, he, _, _, h2, h3, h13⟩ := options_init_callbacks sampleBuild sampleGlobals
  exact ⟨e, he, h2 (by decide), h3 (by decide), h13 (by decide)⟩

/-! ## Claims on `prng_rand` storing the state and on `allocate_memory` -/

theorem mul_star_fixed (t : Nat) (ht : t < 2 ^ 64) :
    (2685821657736338717 * t) % 2 ^ 64 = t ↔ 2 ^ 62 ∣ t := by
  have hK : 2685821657736338717 * t = t + 2 ^ 2 * (671455414434084679 * t) := by ring
  have hcop : Nat.Coprime (2 ^ 62) 671455414434084679 := by
    apply Nat.Coprime.pow_left
    show Nat.gcd 2 671455414434084679 = 1
    rfl
  constructor
  · intro h
    have h1 : (t + 2 ^ 2 * (671455414434084679 * t)) % 2 ^ 64 = t % 2 ^ 64 := by
      rw [← hK, h, Nat.mod_eq_of_lt ht]
    have h2 : 2 ^ 64 ∣ 2 ^ 2 * (671455414434084679 * t) := by
      have := (Nat.modEq_iff_dvd' (Nat.le_add_right t _)).1 h1.symm
      simpa using this
    have h3 : 2 ^ 62 ∣ 671455414434084679 * t := by
      have e : (2 : Nat) ^ 64 = 2 ^ 2 * 2 ^ 62 := by norm_num
      rw [e] at h2
      exact Nat.dvd_of_mul_dvd_mul_left (by norm_num) h2
    exact hcop.dvd_of_dvd_mul_left h3
  · rintro ⟨c, rfl⟩
    rw [hK]
    have e : 2 ^ 2 * (671455414434084679 * (2 ^ 62 * c)) = 2 ^ 64 * (671455414434084679 * c) := by
      ring
    rw [e, Nat.add_mul_mod_self_left, Nat.mod_eq_of_lt ht]

/-- C17 fails on the code at state 1: the state `prng_rand` stores is 33554433,
the value it returns is 33554433 times the constant modulo `2 ^ 64`. -/
theorem prng_rand_state_ne_value :
    (prng_rand { s := 1 }).2.s = 33554433 ∧
      (prng_rand { s := 1 }).1 = 5180492295206395165 ∧
      (prng_rand { s := 1 }).2.s ≠ (prng_rand { s := 1 }).1 := by
  decide

/-- C17 as amended: for every 64-bit state, `prng_rand` stores as the new state
the result of the three xor-shifts alone; the value it returns is that stored
state times 2685821657736338717 modulo `2 ^ 64`, and the two coincide only
when the stored state is a multiple of `2 ^ 62`. -/
theorem prng_rand_stores_xorshift (rng : PRNG) (hs : rng.s < 2 ^ 64) :
    (prng_rand rng).2.s = xorshiftStep rng.s ∧
      (prng_rand rng).1 = (2685821657736338717 * (prng_rand rng).2.s) % 2 ^ 64 ∧
      ((prng_rand rng).2.s = (prng_rand rng).1 ↔ 2 ^ 62 ∣ (prng_rand rng).2.s) := by
  have h1 := prng_rand_state rng
  have h2 := prng_rand_value rng
  refine ⟨h1, by rw [h2, h1], ?_⟩
  rw [h2, h1]
  have hlt := xorshiftStep_lt rng.s hs
  constructor
  · intro e
    exact (mul_star_fixed _ hlt).1 e.symm
  · intro e
    exact ((mul_star_fixed _ hlt).2 e).symm

/-- Instance of the amended C17 at state 1. -/
theorem prng_rand_stores_xorshift_witness :
    (prng_rand { s := 1 }).2.s = xorshiftStep 1 ∧
      (prng_rand { s := 1 }).1 = (2685821657736338717 * (prng_rand { s := 1 }).2.s) % 2 ^ 64 := by
  have h := prng_rand_stores_xorshift { s := 1 } (by norm_num)
  exact ⟨h.1, h.2.1⟩

theorem and_align_mask (x : Nat) (hx : x < 2 ^ 64) :
    x &&& (2 ^ 64 - 1 - (2 ^ 21 - 1)) = x - x % 2 ^ 21 := by
  have em : (2 : Nat) ^ 64 - 1 - (2 ^ 21 - 1) = 2 ^ 21 * (2 ^ 43 - 1) := by norm_num
  have ex : x - x % 2 ^ 21 = 2 ^ 21 * (x / 2 ^ 21) := by
    have := Nat.div_add_mod x (2 ^ 21)
    omega
  rw [em, ex]
  apply Nat.eq_of_testBit_eq
  intro i
  rw [Nat.testBit_and, Nat.testBit_mul_pow_two, Nat.testBit_mul_pow_two,
    Nat.testBit_two_pow_sub_one, ← Nat.shiftRight_eq_div_pow, Nat.testBit_shiftRight]
  by_cases h21 : 21 ≤ i
  · have e : 21 + (i - 21) = i := by omega
    rw [e]
    by_cases h64 : i < 64
    · have : i - 21 < 43 := by omega
      simp [h21, this]
    · have hxi : x < 2 ^ i :=
        lt_of_lt_of_le hx (Nat.pow_le_pow_right (by norm_num) (by omega))
      simp [Nat.testBit_lt_two_pow hxi]
  · simp [h21]

theorem and_all_ones (x : Nat) (hx : x < 2 ^ 64) : x &&& (2 ^ 64 - 1 - (1 - 1)) = x := by
  have e : (2 : Nat) ^ 64 - 1 - (1 - 1) = 2 ^ 64 - 1 := by norm_num
  rw [e]
  exact Nat.and_pow_two_sub_one_of_lt_two_pow hx

/-- C15: on the Unix path, when `size + alignment - 1` does not overflow and
the reservation of that many bytes at `p` lies with its end below the top of
the 64-bit address space, the returned pointer `r` satisfies
`p ≤ r < p + alignment` and `r + size ≤ alloc.ptr + alloc.size`, with
`alloc.ptr = p` and `alloc.size = size + alignment - 1`, which are the
arguments `free_memory` hands to `munmap`; with `lp` the pointer `r` is a
multiple of 2097152, without `lp` it is `p` itself and `alloc.size = size`. -/
theorem allocate_memory_aligned (mmap : Nat → Nat) (size : Nat) (lp : Bool) (p : Nat)
    (hsize : size + (if lp then 2097152 else 1) - 1 < 2 ^ 64)
    (hp : mmap (size + (if lp then 2097152 else 1) - 1) = p)
    (hres : p + (size + (if lp then 2097152 else 1) - 1) < 2 ^ 64) :
    p ≤ (allocate_memory mmap size lp).1 ∧
      (allocate_memory mmap size lp).1 < p + (if lp then 2097152 else 1) ∧
      (allocate_memory mmap size lp).1 + size ≤
        (allocate_memory mmap size lp).2.ptr + (allocate_memory mmap size lp).2.size ∧
      (allocate_memory mmap size lp).2.ptr = p ∧
      (allocate_memory mmap size lp).2.size = size + (if lp then 2097152 else 1) - 1 ∧
      free_memory (allocate_memory mmap size lp).2 =
        (p, size + (if lp then 2097152 else 1) - 1) ∧
      (lp = true → (allocate_memory mmap size lp).1 % 2097152 = 0) ∧
      (lp = false → (allocate_memory mmap size lp).1 = p ∧
        (allocate_memory mmap size lp).2.size = size) := by
  cases lp with
  | false =>
    simp only [Bool.false_eq_true, if_false] at hsize hp hres
    have hr : (allocate_memory mmap size false).1 = p := by
      simp only [allocate_memory, Bool.false_eq_true, if_false]
      rw [Nat.mod_eq_of_lt hsize, hp, Nat.add_sub_cancel, Nat.mod_eq_of_lt (by omega),
        and_all_ones p (by omega)]
    have ha : (allocate_memory mmap size false).2 = { ptr := p, size := size } := by
      simp only [allocate_memory, Bool.false_eq_true, if_false]
      rw [Nat.mod_eq_of_lt hsize, hp, Nat.add_sub_cancel]
    rw [hr, ha]
    simp [free_memory]
  | true =>
    simp only [if_true] at hsize hp hres
    have hal : (1 <<< 21) % 2 ^ 64 = 2097152 := by decide
    have hx : p + 2097152 - 1 < 2 ^ 64 := by omega
    have hr : (allocate_memory mmap size true).1 =
        (p + 2097152 - 1) - (p + 2097152 - 1) % 2 ^ 21 := by
      simp only [allocate_memory, if_true, hal]
      rw [Nat.mod_eq_of_lt hsize, hp, Nat.mod_eq_of_lt hx]
      exact and_align_mask _ hx
    have ha : (allocate_memory mmap size true).2 =
        { ptr := p, size := size + 2097152 - 1 } := by
      simp only [allocate_memory, if_true, hal]
      rw [Nat.mod_eq_of_lt hsize, hp]
    rw [hr, ha]
    have hm := Nat.mod_lt (p + 2097152 - 1) (show 0 < 2 ^ 21 by norm_num)
    have hd := Nat.div_add_mod (p + 2097152 - 1) (2 ^ 21)
    have e21 : (2 : Nat) ^ 21 = 2097152 := by norm_num
    rw [e21] at hm hd ⊢
    simp only [if_true]
    refine ⟨by omega, by omega, by omega, trivial, trivial, rfl, ?_, ?_⟩
    · intro _
      omega
    · intro h
      cases h

/-- Instance of C15: one byte asked for with `lp` at the reservation base
4096 gives the pointer 2097152, and 100 bytes without `lp` give the base. -/
theorem allocate_memory_aligned_witness :
    (allocate_memory (fun _ => 4096) 1 true).1 = 2097152 ∧
      (allocate_memory (fun _ => 4096) 100 false).1 = 4096 := by
  have h := allocate_memory_aligned (fun _ => 4096) 1 true 4096 (by decide) rfl (by decide)
  have k := allocate_memory_aligned (fun _ => 4096) 100 false 4096 (by decide) rfl (by decide)
  refine ⟨?_, (k.2.2.2.2.2.2.2 rfl).1⟩
  have h1 := h.1
  have h2 := h.2.1
  have h3 := h.2.2.2.2.2.2.1 rfl
  simp only [if_true] at h2
  omega

/-- C18: on the Unix path with 64-bit pointers, when `mmap` fails and returns
`MAP_FAILED`, `allocate_memory` returns the null pointer if `lp` is true and
`MAP_FAILED` itself if `lp` is false, and the allocation record holds
`MAP_FAILED`. -/
theorem allocate_memory_failed (mmap : Nat → Nat) (size : Nat) (lp : Bool)
    (hfail : mmap ((size + (if lp then 2097152 else 1) - 1) % 2 ^ 64) = MAP_FAILED) :
    (allocate_memory mmap size lp).1 = (if lp then 0 else MAP_FAILED) ∧
      (allocate_memory mmap size lp).2.ptr = MAP_FAILED := by
  cases lp with
  | false =>
    simp only [Bool.false_eq_true, if_false] at hfail
    refine ⟨?_, ?_⟩
    · simp only [allocate_memory, Bool.false_eq_true, if_false, hfail]
      decide
    · simp only [allocate_memory, Bool.false_eq_true, if_false, hfail]
  | true =>
    simp only [if_true] at hfail
    have hal : (1 <<< 21) % 2 ^ 64 = 2097152 := by decide
    refine ⟨?_, ?_⟩
    · simp only [allocate_memory, if_true, hal, hfail]
      decide
    · simp only [allocate_memory, if_true, hal, hfail]

/-- Instance of C18 with an `mmap` that always fails. -/
theorem allocate_memory_failed_witness :
    (allocate_memory (fun _ => MAP_FAILED) 1048576 true).1 = 0 ∧
      (allocate_memory (fun _ => MAP_FAILED) 1048576 false).1 = MAP_FAILED :=
  ⟨(allocate_memory_failed (fun _ => MAP_FAILED) 1048576 true rfl).1,
    (allocate_memory_failed (fun _ => MAP_FAILED) 1048576 false rfl).1⟩

/-! ## Claims on the endianness helpers and on the option names -/

theorem or_shift_bytes (a b : Nat) (k : Nat) (ha : a < 2 ^ k) :
    a ||| b <<< k = a + 2 ^ k * b := by
  rw [Nat.shiftLeft_eq, Nat.mul_comm b, Nat.or_comm, ← Nat.mul_add_lt_is_or ha, Nat.add_comm]

theorem readu_le_u32_value (mem : Nat → Nat) (p : Nat) (hb : ∀ a, mem a < 2 ^ 8) :
    readu_le_u32 mem p =
      mem p + 2 ^ 8 * mem (p + 1) + 2 ^ 16 * mem (p + 2) + 2 ^ 24 * mem (p + 3) := by
  have h0 := hb p
  have h1 := hb (p + 1)
  have h2 := hb (p + 2)
  have h3 := hb (p + 3)
  have s1 : mem (p + 1) <<< 8 < 2 ^ 32 := by rw [Nat.shiftLeft_eq]; omega
  have s2 : mem (p + 2) <<< 16 < 2 ^ 32 := by rw [Nat.shiftLeft_eq]; omega
  have s3 : mem (p + 3) <<< 24 < 2 ^ 32 := by rw [Nat.shiftLeft_eq]; omega
  unfold readu_le_u32
  rw [Nat.mod_eq_of_lt s1, Nat.mod_eq_of_lt s2, Nat.mod_eq_of_lt s3,
    or_shift_bytes _ _ 8 h0, or_shift_bytes _ _ 16 (by omega), or_shift_bytes _ _ 24 (by omega)]
  apply Nat.mod_eq_of_lt
  omega

theorem readu_le_u16_value (mem : Nat → Nat) (p : Nat) (hb : ∀ a, mem a < 2 ^ 8) :
    readu_le_u16 mem p = mem p + 2 ^ 8 * mem (p + 1) := by
  have h0 := hb p
  have h1 := hb (p + 1)
  have s1 : mem (p + 1) <<< 8 < 2 ^ 32 := by rw [Nat.shiftLeft_eq]; omega
  unfold readu_le_u16
  rw [Nat.mod_eq_of_lt s1, or_shift_bytes _ _ 8 h0]
  apply Nat.mod_eq_of_lt
  omega

theorem bswap32_bytes (b0 b1 b2 b3 : Nat) (h0 : b0 < 2 ^ 8) (h1 : b1 < 2 ^ 8) (h2 : b2 < 2 ^ 8)
    (h3 : b3 < 2 ^ 8) :
    bswap32 (b3 + 2 ^ 8 * b2 + 2 ^ 16 * b1 + 2 ^ 24 * b0) =
      b0 + 2 ^ 8 * b1 + 2 ^ 16 * b2 + 2 ^ 24 * b3 := by
  unfold bswap32
  omega

theorem bswap16_bytes (b0 b1 : Nat) (h0 : b0 < 2 ^ 8) (h1 : b1 < 2 ^ 8) :
    bswap16 (b1 + 2 ^ 8 * b0) = b0 + 2 ^ 8 * b1 := by
  unfold bswap16
  omega

/-- C19: for every memory of bytes, every address and both host byte orders,
`read_le_u32` (the native 32-bit load followed by `from_le_u32`) returns the
same value as the byte-wise `readu_le_u32`, namely
`b0 + 2^8 * b1 + 2^16 * b2 + 2^24 * b3` for the four bytes at the address, and
`read_le_u16` equals `readu_le_u16 = b0 + 2^8 * b1`. -/
theorem read_le_eq_readu (h : Host) (mem : Nat → Nat) (p : Nat) (hb : ∀ a, mem a < 2 ^ 8) :
    read_le_u32 h mem p = readu_le_u32 mem p ∧
      readu_le_u32 mem p =
        mem p + 2 ^ 8 * mem (p + 1) + 2 ^ 16 * mem (p + 2) + 2 ^ 24 * mem (p + 3) ∧
      read_le_u16 h mem p = readu_le_u16 mem p ∧
      readu_le_u16 mem p = mem p + 2 ^ 8 * mem (p + 1) := by
  have h0 := hb p
  have h1 := hb (p + 1)
  have h2 := hb (p + 2)
  have h3 := hb (p + 3)
  have e32 := readu_le_u32_value mem p hb
  have e16 := readu_le_u16_value mem p hb
  refine ⟨?_, e32, ?_, e16⟩
  · rw [e32]
    cases h with
    | little => simp [read_le_u32, from_le_u32, is_little_endian, first_byte, load_u32]
    | big =>
      have hl : is_little_endian Host.big = false := by decide
      simp only [read_le_u32, from_le_u32, hl, load_u32, Bool.false_eq_true, if_false]
      exact bswap32_bytes _ _ _ _ h0 h1 h2 h3
  · rw [e16]
    cases h with
    | little => simp [read_le_u16, from_le_u16, is_little_endian, first_byte, load_u16]
    | big =>
      have hl : is_little_endian Host.big = false := by decide
      simp only [read_le_u16, from_le_u16, hl, load_u16, Bool.false_eq_true, if_false]
      exact bswap16_bytes _ _ h0 h1

/-- Instance of C19: the bytes 0x78 0x56 0x34 0x12 read as 0x12345678 on a
big-endian host, with either function. -/
theorem read_le_eq_readu_witness :
    read_le_u32 Host.big (fun a => [0x78, 0x56, 0x34, 0x12].getD a 0) 0 = 0x12345678 ∧
      readu_le_u32 (fun a => [0x78, 0x56, 0x34, 0x12].getD a 0) 0 = 0x12345678 := by
  have h := read_le_eq_readu Host.big (fun a => [0x78, 0x56, 0x34, 0x12].getD a 0) 0 (by
    intro a
    rcases a with _ | _ | _ | _ | a <;> simp [List.getD])
  exact ⟨h.1.trans (h.2.1.trans (by decide)), h.2.1.trans (by decide)⟩

/-- C20: on every build the names of the rows of `optionsMap` are pairwise
distinct under case-insensitive comparison: two rows that `strcasecmp` finds
equal in name are the same row, so a name identifies at most one option. -/
theorem optionsMap_names_distinct (b : Build) :
    ((optionsMap b).map (fun o => o.name.data.map tolower)).Nodup ∧
      (∀ (i j : Nat) (oi oj : UciOption), (optionsMap b)[i]? = some oi → (optionsMap b)[j]? = some oj →
        strcasecmp oi.name.data oj.name.data = 0 → i = j) ∧
      (∀ (name : List Char) (i j : Nat) (oi oj : UciOption), (optionsMap b)[i]? = some oi → (optionsMap b)[j]? = some oj →
        strcasecmp oi.name.data name = 0 → strcasecmp oj.name.data name = 0 → i = j) := by
  have hn := optionsMap_names_nodup b
  refine ⟨hn, ?_, ?_⟩
  · intro i j oi oj hi hj he
    exact nodup_map_index (fun o => o.name.data.map tolower) (optionsMap b) hn i j oi oj hi hj
      ((strcasecmp_eq_zero _ _).1 he)
  · intro name i j oi oj hi hj h1 h2
    apply nodup_map_index (fun o => o.name.data.map tolower) (optionsMap b) hn i j oi oj hi hj
    show oi.name.data.map tolower = oj.name.data.map tolower
    rw [(strcasecmp_eq_zero _ _).1 h1, (strcasecmp_eq_zero _ _).1 h2]

/-! ## Lemmas for the period of the generator -/

theorem xor_div_two_pow (a b k : Nat) : (a ^^^ b) / 2 ^ k = a / 2 ^ k ^^^ b / 2 ^ k := by
  apply Nat.eq_of_testBit_eq
  intro i
  simp only [← Nat.shiftRight_eq_div_pow, Nat.testBit_shiftRight, Nat.testBit_xor]

theorem xor_mod_two_pow (a b k : Nat) : (a ^^^ b) % 2 ^ k = a % 2 ^ k ^^^ b % 2 ^ k := by
  apply Nat.eq_of_testBit_eq
  intro i
  simp only [Nat.testBit_mod_two_pow, Nat.testBit_xor]
  by_cases h : i < k <;> simp [h]

theorem xor_mul_two_pow (a b k : Nat) : (a ^^^ b) * 2 ^ k = a * 2 ^ k ^^^ b * 2 ^ k := by
  apply Nat.eq_of_testBit_eq
  intro i
  simp only [← Nat.shiftLeft_eq, Nat.testBit_shiftLeft, Nat.testBit_xor]
  by_cases h : k ≤ i <;> simp [h]

theorem xorLinear_zero (g : Nat → Nat) (hg : XorLinear g) : g 0 = 0 := by
  have h := hg 0 0
  rw [Nat.xor_self] at h
  have h2 : g 0 ^^^ g 0 = 0 := Nat.xor_self _
  rw [h2] at h
  exact h

theorem xorLinear_id : XorLinear id := fun _ _ => rfl

theorem xorLinear_comp (g h : Nat → Nat) (hg : XorLinear g) (hh : XorLinear h) :
    XorLinear (g ∘ h) := by
  intro a b
  show g (h (a ^^^ b)) = g (h a) ^^^ g (h b)
  rw [hh a b, hg]

theorem xorLinear_xor (g h : Nat → Nat) (hg : XorLinear g) (hh : XorLinear h) :
    XorLinear (fun v => g v ^^^ h v) := by
  intro a b
  simp only [hg a b, hh a b]
  apply Nat.eq_of_testBit_eq
  intro i
  simp only [Nat.testBit_xor]
  cases (g a).testBit i <;> cases (g b).testBit i <;> cases (h a).testBit i <;>
    cases (h b).testBit i <;> rfl

theorem xorLinear_step : XorLinear xorshiftStep := by
  have h1 : XorLinear (fun s => s ^^^ s / 2 ^ 12) :=
    xorLinear_xor id (fun s => s / 2 ^ 12) xorLinear_id (fun a b => xor_div_two_pow a b 12)
  have h2 : XorLinear (fun a => a ^^^ (a * 2 ^ 25) % 2 ^ 64) :=
    xorLinear_xor id (fun a => (a * 2 ^ 25) % 2 ^ 64) xorLinear_id
      (fun a b => by simp only [xor_mul_two_pow, xor_mod_two_pow])
  have h3 : XorLinear (fun s => s ^^^ s / 2 ^ 27) :=
    xorLinear_xor id (fun s => s / 2 ^ 27) xorLinear_id (fun a b => xor_div_two_pow a b 27)
  exact xorLinear_comp _ _ h3 (xorLinear_comp _ _ h2 h1)

theorem xorLinear_iterate (g : Nat → Nat) (hg : XorLinear g) (n : Nat) : XorLinear g^[n] := by
  induction n with
  | zero => exact xorLinear_id
  | succ n ih =>
    rw [Function.iterate_succ]
    exact xorLinear_comp _ _ ih hg

theorem applyCols_nil (v : Nat) : applyCols [] v = 0 := rfl

theorem applyCols_cons (c : Nat) (A : List Nat) (v : Nat) :
    applyCols (c :: A) v = (v % 2) * c ^^^ applyCols A (v / 2) := rfl

theorem bit_mul_xor (a b c : Nat) :
    ((a ^^^ b) % 2) * c = (a % 2) * c ^^^ (b % 2) * c := by
  have h := xor_mod_two_pow a b 1
  rw [pow_one] at h
  rw [h]
  rcases Nat.mod_two_eq_zero_or_one a with ha | ha <;>
    rcases Nat.mod_two_eq_zero_or_one b with hb | hb <;> simp [ha, hb]

theorem xorLinear_applyCols (A : List Nat) : XorLinear (applyCols A) := by
  induction A with
  | nil =>
    intro a b
    simp only [applyCols_nil]
    rfl
  | cons c A ih =>
    intro a b
    simp only [applyCols_cons]
    have hd := xor_div_two_pow a b 1
    rw [pow_one] at hd
    rw [hd, ih, bit_mul_xor]
    apply Nat.eq_of_testBit_eq
    intro i
    simp only [Nat.testBit_xor]
    cases ((a % 2) * c).testBit i <;> cases ((b % 2) * c).testBit i <;>
      cases (applyCols A (a / 2)).testBit i <;> cases (applyCols A (b / 2)).testBit i <;> rfl

theorem colsOf_succ (g : Nat → Nat) (n : Nat) :
    colsOf g (n + 1) = g 1 :: colsOf (fun v => g (2 * v)) n := by
  unfold colsOf
  rw [List.range_succ_eq_map, List.map_cons, List.map_map]
  simp only [pow_zero, List.cons.injEq, true_and]
  apply List.map_congr_left
  intro i _
  show g (2 ^ (i + 1)) = g (2 * 2 ^ i)
  rw [pow_succ, Nat.mul_comm]

theorem bits_recompose (v : Nat) : v % 2 ^^^ 2 * (v / 2) = v := by
  apply Nat.eq_of_testBit_eq
  intro i
  have h1 : v % 2 = v % 2 ^ 1 := by rw [pow_one]
  have h2 : 2 * (v / 2) = 2 ^ 1 * (v / 2) := by rw [pow_one]
  rw [Nat.testBit_xor, h1, h2, Nat.testBit_mod_two_pow, Nat.testBit_mul_pow_two]
  cases i with
  | zero => simp
  | succ i => simp [Nat.testBit_succ]

theorem applyCols_colsOf (n : Nat) (g : Nat → Nat) (hg : XorLinear g) (v : Nat)
    (hv : v < 2 ^ n) : applyCols (colsOf g n) v = g v := by
  induction n generalizing g v with
  | zero =>
    have hv0 : v = 0 := by simpa using hv
    subst hv0
    rw [xorLinear_zero g hg]
    rfl
  | succ n ih =>
    have hg2 : XorLinear (fun v => g (2 * v)) := by
      intro a b
      have e : 2 * (a ^^^ b) = 2 * a ^^^ 2 * b := by
        have := xor_mul_two_pow a b 1
        rw [pow_one] at this
        rw [Nat.mul_comm 2 (a ^^^ b), this, Nat.mul_comm a, Nat.mul_comm b]
      show g (2 * (a ^^^ b)) = g (2 * a) ^^^ g (2 * b)
      rw [e, hg]
    have hv2 : v / 2 < 2 ^ n := by
      rw [pow_succ] at hv
      omega
    rw [colsOf_succ, applyCols_cons, ih _ hg2 _ hv2]
    have hb : (v % 2) * g 1 = g (v % 2) := by
      rcases Nat.mod_two_eq_zero_or_one v with h | h
      · rw [h, xorLinear_zero g hg, Nat.zero_mul]
      · rw [h, Nat.one_mul]
    rw [hb, ← hg, bits_recompose]

theorem colsOf_congr (g h : Nat → Nat) (n : Nat) (e : ∀ i, i < n → g (2 ^ i) = h (2 ^ i)) :
    colsOf g n = colsOf h n := by
  unfold colsOf
  apply List.map_congr_left
  intro i hi
  exact e i (List.mem_range.1 hi)

theorem mulCols_colsOf (A : List Nat) (h : Nat → Nat) (n : Nat) :
    mulCols A (colsOf h n) = colsOf (fun v => applyCols A (h v)) n := by
  unfold mulCols colsOf
  rw [List.map_map]
  rfl

theorem zipWith_map_same (f : Nat → Nat → Nat) (a b : Nat → Nat) (l : List Nat) :
    List.zipWith f (l.map a) (l.map b) = l.map (fun i => f (a i) (b i)) := by
  induction l with
  | nil => rfl
  | cons x t ih => simp only [List.map_cons, List.zipWith_cons_cons, ih]

theorem xorCols_colsOf (g h : Nat → Nat) (n : Nat) :
    xorCols (colsOf g n) (colsOf h n) = colsOf (fun v => g v ^^^ h v) n := by
  unfold xorCols colsOf
  rw [zipWith_map_same]

theorem step_iterate_lt (e : Nat) (s : Nat) (hs : s < 2 ^ 64) :
    xorshiftStep^[e] s < 2 ^ 64 := by
  induction e with
  | zero => exact hs
  | succ e ih =>
    rw [Function.iterate_succ_apply']
    exact xorshiftStep_lt _ ih

theorem two_pow_lt_word (i : Nat) (hi : i < 64) : 2 ^ i < 2 ^ 64 :=
  Nat.pow_lt_pow_right (by norm_num) hi

theorem powCols_spec (k e : Nat) (he : e < 2 ^ k) :
    powCols k e = colsOf (xorshiftStep^[e]) 64 := by
  induction k generalizing e with
  | zero =>
    have e0 : e = 0 := by simpa using he
    subst e0
    rfl
  | succ k ih =>
    have he2 : e / 2 < 2 ^ k := by
      rw [pow_succ] at he
      omega
    have hsq : mulCols (powCols k (e / 2)) (powCols k (e / 2)) =
        colsOf (xorshiftStep^[2 * (e / 2)]) 64 := by
      rw [ih _ he2, mulCols_colsOf]
      apply colsOf_congr
      intro i hi
      show applyCols (colsOf xorshiftStep^[e / 2] 64) (xorshiftStep^[e / 2] (2 ^ i)) = _
      rw [applyCols_colsOf 64 _ (xorLinear_iterate _ xorLinear_step _) _
        (step_iterate_lt _ _ (two_pow_lt_word i hi)), ← Function.iterate_add_apply]
      congr 1
      omega
    show (if e % 2 = 1
      then (mulCols (powCols k (e / 2)) (powCols k (e / 2))).map xorshiftStep
      else mulCols (powCols k (e / 2)) (powCols k (e / 2))) = _
    rw [hsq]
    by_cases ho : e % 2 = 1
    · rw [if_pos ho]
      unfold colsOf
      rw [List.map_map]
      apply List.map_congr_left
      intro i _
      show xorshiftStep (xorshiftStep^[2 * (e / 2)] (2 ^ i)) = xorshiftStep^[e] (2 ^ i)
      have e1 : e = 2 * (e / 2) + 1 := by omega
      conv_rhs => rw [e1]
      rw [Function.iterate_succ_apply']
    · rw [if_neg ho]
      have e0 : 2 * (e / 2) = e := by omega
      rw [e0]

theorem applyCols_id (s : Nat) (hs : s < 2 ^ 64) : applyCols (colsOf id 64) s = s :=
  applyCols_colsOf 64 id xorLinear_id s hs

theorem zero_of_left_inverse (g : Nat → Nat) (hg : XorLinear g) (Q : List Nat)
    (hQ : mulCols Q (colsOf g 64) = colsOf id 64) (s : Nat) (hs : s < 2 ^ 64)
    (h0 : g s = 0) : s = 0 := by
  have hl : XorLinear (fun v => applyCols Q (g v)) :=
    xorLinear_comp (applyCols Q) g (xorLinear_applyCols Q) hg
  have h1 := applyCols_colsOf 64 _ hl s hs
  rw [← mulCols_colsOf, hQ, applyCols_id s hs] at h1
  rw [h1]
  show applyCols Q (g s) = 0
  rw [h0]
  exact xorLinear_zero _ (xorLinear_applyCols Q)

theorem powCols_full : powCols 64 (2 ^ 64 - 1) = colsOf id 64 := by
  decide!

theorem diffCols_inverse_3 :
    mulCols (gaussInv (diffCols 3)) (diffCols 3) = colsOf id 64 := by
  decide!

theorem diffCols_inverse_5 :
    mulCols (gaussInv (diffCols 5)) (diffCols 5) = colsOf id 64 := by
  decide!

theorem diffCols_inverse_17 :
    mulCols (gaussInv (diffCols 17)) (diffCols 17) = colsOf id 64 := by
  decide!

theorem diffCols_inverse_257 :
    mulCols (gaussInv (diffCols 257)) (diffCols 257) = colsOf id 64 := by
  decide!

theorem diffCols_inverse_641 :
    mulCols (gaussInv (diffCols 641)) (diffCols 641) = colsOf id 64 := by
  decide!

theorem diffCols_inverse_65537 :
    mulCols (gaussInv (diffCols 65537)) (diffCols 65537) = colsOf id 64 := by
  decide!

theorem diffCols_inverse_6700417 :
    mulCols (gaussInv (diffCols 6700417)) (diffCols 6700417) = colsOf id 64 := by
  decide!

theorem diffCols_inverse :
    ∀ q ∈ [3, 5, 17, 257, 641, 65537, 6700417],
      mulCols (gaussInv (diffCols q)) (diffCols q) = colsOf id 64 := by
  intro q hq
  simp only [List.mem_cons, List.mem_singleton, List.not_mem_nil, or_false] at hq
  rcases hq with rfl | rfl | rfl | rfl | rfl | rfl | rfl
  · exact diffCols_inverse_3
  · exact diffCols_inverse_5
  · exact diffCols_inverse_17
  · exact diffCols_inverse_257
  · exact diffCols_inverse_641
  · exact diffCols_inverse_65537
  · exact diffCols_inverse_6700417

theorem step_period (s : Nat) (hs : s < 2 ^ 64) : xorshiftStep^[2 ^ 64 - 1] s = s := by
  have h := applyCols_colsOf 64 _ (xorLinear_iterate _ xorLinear_step (2 ^ 64 - 1)) s hs
  rw [← powCols_spec 64 (2 ^ 64 - 1) (by norm_num), powCols_full, applyCols_id s hs] at h
  exact h.symm

theorem step_no_short_cycle (q : Nat) (hq : q ∈ [3, 5, 17, 257, 641, 65537, 6700417])
    (s : Nat) (hs : s < 2 ^ 64) (h : xorshiftStep^[(2 ^ 64 - 1) / q] s = s) : s = 0 := by
  have hlt : (2 ^ 64 - 1) / q < 2 ^ 64 :=
    lt_of_le_of_lt (Nat.div_le_self _ _) (by norm_num)
  have hd : diffCols q = colsOf (fun v => xorshiftStep^[(2 ^ 64 - 1) / q] v ^^^ id v) 64 := by
    unfold diffCols
    rw [powCols_spec 64 _ hlt, xorCols_colsOf]
  have hl : XorLinear (fun v => xorshiftStep^[(2 ^ 64 - 1) / q] v ^^^ id v) :=
    xorLinear_xor _ _ (xorLinear_iterate _ xorLinear_step _) xorLinear_id
  have hinv := diffCols_inverse q hq
  rw [hd] at hinv
  apply zero_of_left_inverse _ hl _ hinv s hs
  show xorshiftStep^[(2 ^ 64 - 1) / q] s ^^^ s = 0
  rw [h, Nat.xor_self]

theorem word_max_factors :
    2 ^ 64 - 1 = 3 * 5 * 17 * 257 * 641 * 65537 * 6700417 := by
  norm_num

theorem proper_divisor_of_word_max (d : Nat) (hd : d ∣ 2 ^ 64 - 1) (hne : d ≠ 2 ^ 64 - 1) :
    ∃ q ∈ [3, 5, 17, 257, 641, 65537, 6700417], d ∣ (2 ^ 64 - 1) / q := by
  obtain ⟨m, hm⟩ := hd
  have hm1 : m ≠ 1 := by
    intro e
    rw [e, Nat.mul_one] at hm
    exact hne hm.symm
  have hqp : (Nat.minFac m).Prime := Nat.minFac_prime hm1
  have hqm : Nat.minFac m ∣ m := Nat.minFac_dvd m
  have hqN : Nat.minFac m ∣ 3 * 5 * 17 * 257 * 641 * 65537 * 6700417 := by
    rw [← word_max_factors, hm]
    exact Dvd.dvd.mul_left hqm d
  have hmem : Nat.minFac m ∈ [3, 5, 17, 257, 641, 65537, 6700417] := by
    have p3 : Nat.Prime 3 := by norm_num
    have p5 : Nat.Prime 5 := by norm_num
    have p17 : Nat.Prime 17 := by norm_num
    have p257 : Nat.Prime 257 := by norm_num
    have p641 : Nat.Prime 641 := by norm_num
    have p65537 : Nat.Prime 65537 := by norm_num
    have p6700417 : Nat.Prime 6700417 := by norm_num
    simp only [List.mem_cons, List.mem_singleton, List.not_mem_nil, or_false]
    rcases (Nat.Prime.dvd_mul hqp).1 hqN with h | h
    · rcases (Nat.Prime.dvd_mul hqp).1 h with h | h
      · rcases (Nat.Prime.dvd_mul hqp).1 h with h | h
        · rcases (Nat.Prime.dvd_mul hqp).1 h with h | h
          · rcases (Nat.Prime.dvd_mul hqp).1 h with h | h
            · rcases (Nat.Prime.dvd_mul hqp).1 h with h | h
              · exact Or.inl ((Nat.prime_dvd_prime_iff_eq hqp p3).1 h)
              · exact Or.inr (Or.inl ((Nat.prime_dvd_prime_iff_eq hqp p5).1 h))
            · exact Or.inr (Or.inr (Or.inl ((Nat.prime_dvd_prime_iff_eq hqp p17).1 h)))
          · exact Or.inr (Or.inr (Or.inr (Or.inl ((Nat.prime_dvd_prime_iff_eq hqp p257).1 h))))
        · exact Or.inr (Or.inr (Or.inr (Or.inr (Or.inl
            ((Nat.prime_dvd_prime_iff_eq hqp p641).1 h)))))
      · exact Or.inr (Or.inr (Or.inr (Or.inr (Or.inr (Or.inl
          ((Nat.prime_dvd_prime_iff_eq hqp p65537).1 h))))))
    · exact Or.inr (Or.inr (Or.inr (Or.inr (Or.inr (Or.inr
        ((Nat.prime_dvd_prime_iff_eq hqp p6700417).1 h))))))
  refine ⟨Nat.minFac m, hmem, ?_⟩
  rw [hm, Nat.mul_div_assoc d hqm]
  exact Dvd.intro _ rfl

/-! ## Claim on the period of the generator -/

/-- C16: the state update of `prng_rand` (the three xor-shifts on 64 bits) has
period exactly `2 ^ 64 - 1` on nonzero states: for every nonzero 64-bit `s`,
iterating it `2 ^ 64 - 1` times returns `s`, and no smaller positive number of
iterations does. -/
theorem prng_state_period (s : Nat) (hs : s < 2 ^ 64) (h0 : s ≠ 0) :
    (fun t => (prng_rand { s := t }).2.s)^[2 ^ 64 - 1] s = s ∧
      (∀ n, 0 < n → n < 2 ^ 64 - 1 → (fun t => (prng_rand { s := t }).2.s)^[n] s ≠ s) ∧
      (fun t => (prng_rand { s := t }).2.s) = xorshiftStep := by
  have hf : (fun t => (prng_rand { s := t }).2.s) = xorshiftStep := by
    funext t
    exact prng_rand_state { s := t }
  rw [hf]
  refine ⟨step_period s hs, ?_, rfl⟩
  intro n hn hlt hper
  have hN : Function.IsPeriodicPt xorshiftStep (2 ^ 64 - 1) s := step_period s hs
  have hg : Function.IsPeriodicPt xorshiftStep (Nat.gcd n (2 ^ 64 - 1)) s :=
    Function.IsPeriodicPt.gcd hper hN
  have hdvd : Nat.gcd n (2 ^ 64 - 1) ∣ 2 ^ 64 - 1 := Nat.gcd_dvd_right _ _
  have hle : Nat.gcd n (2 ^ 64 - 1) ≤ n := Nat.gcd_le_left _ hn
  have hne : Nat.gcd n (2 ^ 64 - 1) ≠ 2 ^ 64 - 1 := by omega
  obtain ⟨q, hq, hdq⟩ := proper_divisor_of_word_max _ hdvd hne
  have hq_per : Function.IsPeriodicPt xorshiftStep ((2 ^ 64 - 1) / q) s := hg.trans_dvd hdq
  exact h0 (step_no_short_cycle q hq s hs hq_per)

/-- Instance of C16 at the state 1. -/
theorem prng_state_period_witness :
    (fun t => (prng_rand { s := t }).2.s)^[2 ^ 64 - 1] 1 = 1 ∧
      (fun t => (prng_rand { s := t }).2.s)^[3] 1 ≠ 1 := by
  have h := prng_state_period 1 (by norm_num) (by norm_num)
  exact ⟨h.1, h.2.1 3 (by norm_num) (by norm_num)⟩

/-! ## Claim on `mul_hi64` -/

theorem limb_product_le (x y : Nat) (hx : x < 2 ^ 32) (hy : y < 2 ^ 32) :
    x * y ≤ (2 ^ 32 - 1) * (2 ^ 32 - 1) :=
  Nat.mul_le_mul (by omega) (by omega)

theorem limbs_high_word (p0 p1 p2 p3 : Nat) (h0 : p0 ≤ (2 ^ 32 - 1) * (2 ^ 32 - 1))
    (h1 : p1 ≤ (2 ^ 32 - 1) * (2 ^ 32 - 1)) (h2 : p2 ≤ (2 ^ 32 - 1) * (2 ^ 32 - 1))
    (h3 : p3 ≤ (2 ^ 32 - 1) * (2 ^ 32 - 1)) :
    p1 + p0 / 2 ^ 32 < 2 ^ 64 ∧
      p2 + (p1 + p0 / 2 ^ 32) % 2 ^ 32 < 2 ^ 64 ∧
      p3 + (p1 + p0 / 2 ^ 32) / 2 ^ 32 + (p2 + (p1 + p0 / 2 ^ 32) % 2 ^ 32) / 2 ^ 32 < 2 ^ 64 ∧
      (p3 * 2 ^ 64 + (p1 + p2) * 2 ^ 32 + p0) / 2 ^ 64 =
        p3 + (p1 + p0 / 2 ^ 32) / 2 ^ 32 + (p2 + (p1 + p0 / 2 ^ 32) % 2 ^ 32) / 2 ^ 32 := by
  norm_num at h0 h1 h2 h3 ⊢
  refine ⟨by omega, by omega, by omega, by omega⟩

/-- C22: for all 64-bit unsigned `a` and `b` the portable 32-bit-limb branch of
`mul_hi64` returns `a * b / 2 ^ 64`, the same value as the 128-bit-multiply
branch, and none of its 64-bit sums wraps: `aH * bL + c1`,
`aL * bH + (uint32_t)c2` and `aH * bH + (c2 >> 32) + (c3 >> 32)` are all below
`2 ^ 64`. -/
theorem mul_hi64_correct (a b : Nat) (ha : a < 2 ^ 64) (hb : b < 2 ^ 64) :
    mul_hi64 a b = a * b / 2 ^ 64 ∧
      mul_hi64_int128 a b = a * b / 2 ^ 64 ∧
      mul_hi64 a b = mul_hi64_int128 a b ∧
      (a >>> 32) * (b % 2 ^ 32) + mul_hi64_c1 a b < 2 ^ 64 ∧
      (a % 2 ^ 32) * (b >>> 32) + mul_hi64_c2 a b % 2 ^ 32 < 2 ^ 64 ∧
      (a >>> 32) * (b >>> 32) + mul_hi64_c2 a b >>> 32 + mul_hi64_c3 a b >>> 32 < 2 ^ 64 := by
  have haL : a % 2 ^ 32 < 2 ^ 32 := Nat.mod_lt _ (by norm_num)
  have hbL : b % 2 ^ 32 < 2 ^ 32 := Nat.mod_lt _ (by norm_num)
  have haH : a / 2 ^ 32 < 2 ^ 32 := by omega
  have hbH : b / 2 ^ 32 < 2 ^ 32 := by omega
  have h0 := limb_product_le _ _ haL hbL
  have h1 := limb_product_le _ _ haH hbL
  have h2 := limb_product_le _ _ haL hbH
  have h3 := limb_product_le _ _ haH hbH
  obtain ⟨k2, k3, k4, k5⟩ := limbs_high_word _ _ _ _ h0 h1 h2 h3
  have hab : a * b = (a / 2 ^ 32) * (b / 2 ^ 32) * 2 ^ 64
      + ((a / 2 ^ 32) * (b % 2 ^ 32) + (a % 2 ^ 32) * (b / 2 ^ 32)) * 2 ^ 32
      + (a % 2 ^ 32) * (b % 2 ^ 32) := by
    have ea := Nat.div_add_mod a (2 ^ 32)
    have eb := Nat.div_add_mod b (2 ^ 32)
    conv_lhs => rw [← ea, ← eb]
    ring
  have hp0 : (a % 2 ^ 32) * (b % 2 ^ 32) < 2 ^ 64 := by norm_num at h0 ⊢; omega
  have hp1 : (a / 2 ^ 32) * (b % 2 ^ 32) < 2 ^ 64 := by norm_num at h1 ⊢; omega
  have hp2 : (a % 2 ^ 32) * (b / 2 ^ 32) < 2 ^ 64 := by norm_num at h2 ⊢; omega
  have hp3 : (a / 2 ^ 32) * (b / 2 ^ 32) < 2 ^ 64 := by norm_num at h3 ⊢; omega
  have e1 : mul_hi64_c1 a b = (a % 2 ^ 32) * (b % 2 ^ 32) / 2 ^ 32 := by
    simp only [mul_hi64_c1, Nat.shiftRight_eq_div_pow, Nat.mod_eq_of_lt hp0]
  have e2 : mul_hi64_c2 a b =
      (a / 2 ^ 32) * (b % 2 ^ 32) + (a % 2 ^ 32) * (b % 2 ^ 32) / 2 ^ 32 := by
    simp only [mul_hi64_c2, e1, Nat.shiftRight_eq_div_pow, Nat.mod_eq_of_lt hp1,
      Nat.mod_eq_of_lt k2]
  have e3 : mul_hi64_c3 a b = (a % 2 ^ 32) * (b / 2 ^ 32)
      + ((a / 2 ^ 32) * (b % 2 ^ 32) + (a % 2 ^ 32) * (b % 2 ^ 32) / 2 ^ 32) % 2 ^ 32 := by
    simp only [mul_hi64_c3, e2, Nat.shiftRight_eq_div_pow, Nat.mod_eq_of_lt hp2,
      Nat.mod_eq_of_lt k3]
  have hsum : (a / 2 ^ 32) * (b / 2 ^ 32)
      + ((a / 2 ^ 32) * (b % 2 ^ 32) + (a % 2 ^ 32) * (b % 2 ^ 32) / 2 ^ 32) / 2 ^ 32 < 2 ^ 64 :=
    lt_of_le_of_lt (Nat.le_add_right _ _) k4
  have e4 : mul_hi64 a b = (a / 2 ^ 32) * (b / 2 ^ 32)
      + ((a / 2 ^ 32) * (b % 2 ^ 32) + (a % 2 ^ 32) * (b % 2 ^ 32) / 2 ^ 32) / 2 ^ 32
      + ((a % 2 ^ 32) * (b / 2 ^ 32)
        + ((a / 2 ^ 32) * (b % 2 ^ 32) + (a % 2 ^ 32) * (b % 2 ^ 32) / 2 ^ 32) % 2 ^ 32)
          / 2 ^ 32 := by
    simp only [mul_hi64, e2, e3, Nat.shiftRight_eq_div_pow, Nat.mod_eq_of_lt hp3,
      Nat.mod_eq_of_lt hsum, Nat.mod_eq_of_lt k4]
  have hhi : a * b / 2 ^ 64 = (a / 2 ^ 32) * (b / 2 ^ 32)
      + ((a / 2 ^ 32) * (b % 2 ^ 32) + (a % 2 ^ 32) * (b % 2 ^ 32) / 2 ^ 32) / 2 ^ 32
      + ((a % 2 ^ 32) * (b / 2 ^ 32)
        + ((a / 2 ^ 32) * (b % 2 ^ 32) + (a % 2 ^ 32) * (b % 2 ^ 32) / 2 ^ 32) % 2 ^ 32)
          / 2 ^ 32 := by
    rw [← k5, ← hab]
  have hprod : a * b < 2 ^ 128 := by
    have : a * b < 2 ^ 64 * 2 ^ 64 := Nat.mul_lt_mul'' ha hb
    calc a * b < 2 ^ 64 * 2 ^ 64 := this
      _ = 2 ^ 128 := by norm_num
  have hq : a * b / 2 ^ 64 < 2 ^ 64 := by
    rw [Nat.div_lt_iff_lt_mul (by norm_num)]
    calc a * b < 2 ^ 128 := hprod
      _ = 2 ^ 64 * 2 ^ 64 := by norm_num
  have e5 : mul_hi64_int128 a b = a * b / 2 ^ 64 := by
    simp only [mul_hi64_int128, Nat.shiftRight_eq_div_pow, Nat.mod_eq_of_lt hprod,
      Nat.mod_eq_of_lt hq]
  refine ⟨e4.trans hhi.symm, e5, (e4.trans hhi.symm).trans e5.symm, ?_, ?_, ?_⟩
  · rw [e1, Nat.shiftRight_eq_div_pow]
    exact k2
  · rw [e2, Nat.shiftRight_eq_div_pow]
    exact k3
  · rw [e2, e3]
    simp only [Nat.shiftRight_eq_div_pow]
    exact k4

/-- Instance of C22 at the largest operands: the high word of
`(2 ^ 64 - 1) * (2 ^ 64 - 1)` is `2 ^ 64 - 2`. -/
theorem mul_hi64_correct_witness :
    mul_hi64 (2 ^ 64 - 1) (2 ^ 64 - 1) = 2 ^ 64 - 2 ∧
      mul_hi64_int128 (2 ^ 64 - 1) (2 ^ 64 - 1) = 2 ^ 64 - 2 := by
  have h := mul_hi64_correct (2 ^ 64 - 1) (2 ^ 64 - 1) (by norm_num) (by norm_num)
  exact ⟨h.1.trans (by norm_num), h.2.1.trans (by norm_num)⟩

/-! ## Lemmas on the bounds of spin options -/

theorem optionsMap_spin_defaults (b : Build) :
    ∀ o ∈ optionsMap b, o.type = OPT_TYPE_SPIN → o.minVal ≤ o.def_ ∧ o.def_ ≤ o.maxVal := by
  have hall : (optionsMap b).all
      (fun o => decide (o.type = OPT_TYPE_SPIN → o.minVal ≤ o.def_ ∧ o.def_ ≤ o.maxVal)) = true := by
    cases h64 : b.IS_64BIT <;> cases hn : b.NNUE <;> cases hp : b.NNUE_PURE <;>
      simp only [optionsMap, MAXHASHKB, MAX_THREADS, h64, hn, hp, row, if_true, if_false,
        Bool.false_eq_true, List.append_nil, List.cons_append, List.nil_append, List.all_cons,
        List.all_nil] <;>
      rfl
  intro o ho
  exact of_decide_eq_true (List.all_eq_true.mp hall o ho)

theorem optionsMap_spin_minimum (b : Build) :
    ∀ o ∈ optionsMap b, o.type = OPT_TYPE_SPIN →
      o.name = "Hash" ∨ o.name = "Slow Mover" ∨ o.minVal ≤ 5 := by
  have hall : (optionsMap b).all
      (fun o => decide (o.type = OPT_TYPE_SPIN →
        o.name = "Hash" ∨ o.name = "Slow Mover" ∨ o.minVal ≤ 5)) = true := by
    cases hn : b.NNUE <;> cases hp : b.NNUE_PURE <;>
      simp only [optionsMap, hn, hp, row, if_true, if_false,
        Bool.false_eq_true, List.append_nil, List.cons_append, List.nil_append, List.all_cons,
        List.all_nil] <;>
      rfl
  intro o ho
  exact of_decide_eq_true (List.all_eq_true.mp hall o ho)

theorem optionsMap_slow_mover (b : Build) :
    (optionsMap b)[9]? = some (row "Slow Mover" OPT_TYPE_SPIN 100 10 1000 none none) := by
  simp [optionsMap]

theorem optionsMap_index_of_name (b : Build) (i j : Nat) (oi oj : UciOption)
    (hi : (optionsMap b)[i]? = some oi) (hj : (optionsMap b)[j]? = some oj)
    (hn : oi.name = oj.name) : i = j := by
  apply nodup_map_index (fun o => o.name.data.map tolower) (optionsMap b)
    (optionsMap_names_nodup b) i j oi oj hi hj
  show oi.name.data.map tolower = oj.name.data.map tolower
  rw [hn]

theorem prepRow_maxVal (b : Build) (i : Nat) (o : UciOption) :
    (prepRow b i o).maxVal =
      if b.sizeof_size_t < 8 ∧ i = b.OPT_SYZ_PROBE_LIMIT then 5 else o.maxVal := by
  unfold prepRow
  split_ifs <;> simp

theorem set_by_name_limits (name value : String) (e : Engine) :
    limits (option_set_by_name name value e).2.optionsMap = limits e.optionsMap := by
  by_cases h : ∃ o ∈ e.optionsMap, Matches name o
  · obtain ⟨pre, o, post, htbl, h1, h2⟩ := first_match_split name e.optionsMap h
    rw [set_by_name_first name value e pre o post htbl h1 h2]
    cases hs : set_switch o value e.globals with
    | none => rfl
    | some r =>
      obtain ⟨o1, g1⟩ := r
      have hf := set_switch_fields o value e.globals o1 g1 hs
      simp [limits, htbl, hf.2.1, hf.2.2.2.1, hf.2.2.2.2.1]
  · have hno : ∀ o ∈ e.optionsMap, ¬ Matches name o := fun o ho hm => h ⟨o, ho, hm⟩
    rw [set_by_name_no_match name value e hno]

theorem set_by_name_in_range (name value : String) (e : Engine)
    (hinv : SpinInRange e.optionsMap) :
    SpinInRange (option_set_by_name name value e).2.optionsMap := by
  by_cases h : ∃ o ∈ e.optionsMap, Matches name o
  · obtain ⟨pre, o, post, htbl, h1, h2⟩ := first_match_split name e.optionsMap h
    rw [set_by_name_first name value e pre o post htbl h1 h2]
    cases hs : set_switch o value e.globals with
    | none => exact hinv
    | some r =>
      obtain ⟨o1, g1⟩ := r
      have hf := set_switch_fields o value e.globals o1 g1 hs
      intro q hq hqt
      show q.minVal ≤ q.value ∧ q.value ≤ q.maxVal
      have hq1 : q ∈ pre ++ o1 :: post := hq
      rcases List.mem_append.1 hq1 with hp | hp
      · exact hinv q (by rw [htbl]; exact List.mem_append_left _ hp) hqt
      · rcases List.mem_cons.1 hp with e1 | e1
        · subst e1
          have hot : o.type = OPT_TYPE_SPIN := hf.2.1.symm.trans hqt
          rw [set_switch_spin o value e.globals hot] at hs
          split_ifs at hs with hc
          cases hs
          push_neg at hc
          exact ⟨hc.1, hc.2⟩
        · exact hinv q (by rw [htbl]; exact List.mem_append_right _ (List.mem_cons_of_mem _ e1)) hqt
  · have hno : ∀ o ∈ e.optionsMap, ¬ Matches name o := fun o ho hm => h ⟨o, ho, hm⟩
    rw [set_by_name_no_match name value e hno]
    exact hinv

theorem run_set_by_name_limits (cmds : List (String × String)) (e : Engine) :
    limits (run_set_by_name cmds e).optionsMap = limits e.optionsMap := by
  induction cmds generalizing e with
  | nil => rfl
  | cons c cs ih =>
    obtain ⟨name, value⟩ := c
    simp only [run_set_by_name]
    rw [ih, set_by_name_limits]

theorem run_set_by_name_in_range (cmds : List (String × String)) (e : Engine)
    (hinv : SpinInRange e.optionsMap) : SpinInRange (run_set_by_name cmds e).optionsMap := by
  induction cmds generalizing e with
  | nil => exact hinv
  | cons c cs ih =>
    obtain ⟨name, value⟩ := c
    simp only [run_set_by_name]
    exact ih _ (set_by_name_in_range name value e hinv)

theorem options_init_in_range (b : Build) (g : Globals) (e : Engine)
    (he : options_init b (boot b g) = some e)
    (hsyz : b.sizeof_size_t < 8 → b.OPT_SYZ_PROBE_LIMIT ≠ 3 ∧ b.OPT_SYZ_PROBE_LIMIT ≠ 9) :
    SpinInRange e.optionsMap := by
  intro o ho hot
  obtain ⟨i, hi⟩ := List.mem_iff_getElem?.1 ho
  obtain ⟨o0, h0, hr⟩ := options_init_row b g e he i o hi
  have hf := initRow_fields _ _ hr
  have hpf := prepRow_fields b i o0
  have hpt : (prepRow b i o0).type = OPT_TYPE_SPIN := hf.2.1.symm.trans hot
  have h0t : o0.type = OPT_TYPE_SPIN := by
    rcases hpf.2.2.2.2.2.2 with h | h
    · exact h.symm.trans hpt
    · rw [hpt] at h; cases h
  rw [init_switch_numeric _ (Or.inr hpt)] at hr
  cases hr
  show (prepRow b i o0).minVal ≤ (prepRow b i o0).def_ ∧
    (prepRow b i o0).def_ ≤ (prepRow b i o0).maxVal
  rw [hpf.2.2.2.2.2.1, prepRow_def, prepRow_maxVal]
  have hmem : o0 ∈ optionsMap b := List.getElem?_mem h0
  by_cases hc : b.sizeof_size_t < 8 ∧ i = b.OPT_SYZ_PROBE_LIMIT
  · rw [if_pos hc, if_pos hc]
    refine ⟨?_, le_refl _⟩
    rcases optionsMap_spin_minimum b o0 hmem h0t with hn | hn | hn
    · have h3 := (optionsMap_head b).2.1
      have e3 : i = 3 := optionsMap_index_of_name b i 3 o0 _ h0 h3 hn
      exact absurd (hc.2.symm.trans e3) (hsyz hc.1).1
    · have e9 : i = 9 := optionsMap_index_of_name b i 9 o0 _ h0 (optionsMap_slow_mover b) hn
      exact absurd (hc.2.symm.trans e9) (hsyz hc.1).2
    · exact hn
  · rw [if_neg hc, if_neg hc]
    exact optionsMap_spin_defaults b o0 hmem h0t

/-- The condition on `OPT_SYZ_PROBE_LIMIT` in the range property is needed in
this model: were the constant to name `Hash` on a build with
`sizeof(size_t) < 8`, `options_init` would leave that row with the value 5
below its minimum 64. -/
theorem options_init_syz_on_hash :
    ∃ e, options_init { sampleBuild32 with OPT_SYZ_PROBE_LIMIT := 3 }
        (boot { sampleBuild32 with OPT_SYZ_PROBE_LIMIT := 3 } sampleGlobals) = some e ∧
      (e.optionsMap[3]?).map (fun o => (o.name, o.type, o.minVal, o.value, o.maxVal)) =
        some ("Hash", OPT_TYPE_SPIN, 64, 5, 5) :=
  ⟨_, rfl, rfl⟩

/-- C21: `options_init` on the statically initialised table completes, and in
the state it leaves and in every state reached from it by any sequence of
`option_set_by_name` calls, every enabled spin option has its current value
between its minimum and its maximum; the row `Threads` (index 2), when none of
the assignments before the loop of `options_init` lands on it, keeps the
minimum 1, the maximum 1 and the value 1 throughout.  The constant
`OPT_SYZ_PROBE_LIMIT` comes from a header outside these sources: on a build
with `sizeof(size_t) < 8`, where `options_init` writes 5 as default and as
maximum of the row it names, it is taken to name neither `Hash` (index 3,
minimum 64) nor `Slow Mover` (index 9, minimum 10). -/
theorem spin_options_in_range (b : Build) (g : Globals) (cmds : List (String × String))
    (hsyz : b.sizeof_size_t < 8 → b.OPT_SYZ_PROBE_LIMIT ≠ 3 ∧ b.OPT_SYZ_PROBE_LIMIT ≠ 9) :
    ∃ e, options_init b (boot b g) = some e ∧
      (∀ o ∈ (run_set_by_name cmds e).optionsMap, o.type = OPT_TYPE_SPIN →
        o.minVal ≤ o.value ∧ o.value ≤ o.maxVal) ∧
      (untouched b 2 → ∃ o, (run_set_by_name cmds e).optionsMap[2]? = some o ∧
        o.name = "Threads" ∧ o.type = OPT_TYPE_SPIN ∧ o.minVal = 1 ∧ o.maxVal = 1 ∧
        o.value = 1 ∧ option_value (run_set_by_name cmds e) 2 = some 1) := by
  obtain ⟨e, he, _, _⟩ := options_init_boot b g
  have hinv : SpinInRange (run_set_by_name cmds e).optionsMap :=
    run_set_by_name_in_range cmds e (options_init_in_range b g e he hsyz)
  refine ⟨e, he, hinv, ?_⟩
  intro hu
  have h2 := options_init_untouched_row b g e he 2 _ (optionsMap_callback_rows b).1 hu
    (Or.inr rfl)
  have hl := congrArg (fun l => l[2]?) (run_set_by_name_limits cmds e)
  have hs := congrArg (fun l => l[2]?) (run_set_by_name_shape cmds e)
  simp only [limits, shape, List.getElem?_map, h2, Option.map_some'] at hl hs
  cases hq : (run_set_by_name cmds e).optionsMap[2]? with
  | none => simp [hq] at hl
  | some o =>
    simp only [hq, Option.map_some', Option.some.injEq, Prod.mk.injEq, row, MAX_THREADS] at hl hs
    obtain ⟨ht, hmin, hmax⟩ := hl
    have hr := hinv o (List.getElem?_mem hq) ht
    have hv : o.value = 1 := by
      rw [hmin, hmax] at hr
      exact le_antisymm hr.2 hr.1
    refine ⟨o, rfl, hs.1, ht, hmin, hmax, hv, ?_⟩
    simp [option_value, hq, hv]

theorem spin_options_in_range_witness :
    ∃ e, options_init sampleBuild32 (boot sampleBuild32 sampleGlobals) = some e ∧
      option_value (run_set_by_name [("Threads", "4"), ("MultiPV", "3"), ("hash", "2048")] e) 2
        = some 1 := by
  obtain ⟨e, he, _, h2⟩ := spin_options_in_range sampleBuild32 sampleGlobals
    [("Threads", "4"), ("MultiPV", "3"), ("hash", "2048")] (by decide)
  obtain ⟨o, _, _, _, _, _, _, hv⟩ := h2 (by decide)
  exact ⟨e, he, hv⟩

end Noggenfogger
